import Mathlib

/-!
Verification development for the BEALS Crossref query evaluator
(src/search_query/beals.py, class BEALSCrossref).

The evaluator walks a boolean query tree (leaf terms, AND/OR operator
nodes).  Remote interaction is abstracted by two oracles:
a record oracle mapping a leaf term to the record stream the remote
service returns for its query, and a count oracle mapping a leaf term to
the estimated total count used by cost estimation.  Records are reduced
to the two fields the evaluator reads, the DOI and the title; an absent
field is modelled as none.  Python exceptions (ValueError in
run_beals/calculate_path/filter_records, AttributeError in
_remove_duplicates) are modelled with Except.
-/

/-- Character class [a-zA-Z] used by the filtering regex of
_filter_records_by_term (beals.py line 170). -/
def isAsciiLetter (c : Char) : Bool :=
  ('a' ≤ c && c ≤ 'z') || ('A' ≤ c && c ≤ 'Z')

/-- ASCII lowercasing of one character; agrees with Python str.lower on the
ASCII range (titles and terms are modelled as ASCII text). -/
def lowerChar (c : Char) : Char :=
  if 'A' ≤ c ∧ c ≤ 'Z' then Char.ofNat (c.toNat + 32) else c

/-- Python str.lower, restricted to ASCII. -/
def lowerStr (s : String) : String := String.mk (s.data.map lowerChar)

/-- A bibliographic record, reduced to the two fields the evaluator reads:
record.data.get("doi") and record.data.get("title"); none models an absent
field (Python dict.get returning None). -/
structure Record where
  doi : Option String
  title : Option String
deriving DecidableEq, Repr

/-- Tail check of the filtering regex, alternation ([^a-zA-Z]|$): at the end
of the string, or a non letter ahead. -/
def rightBd (s : List Char) : Bool :=
  match s with
  | [] => true
  | c :: _ => !(isAsciiLetter c)

/-- Operational model of re.search with pattern (^|[^a-zA-Z])term([^a-zA-Z]|$)
(beals.py line 170), reading the interpolated term as a literal string:
scan every start position of the title; at position 0 the caret
alternative applies, at every position a non letter character may be
consumed as the left boundary.  Both strings are already lowercased by the
caller, which keeps re.IGNORECASE a no-op on ASCII.  The literal reading
is faithful exactly for terms free of regex metacharacters; the unescaped
interpolation of other terms is modelled by reSearch below and settles
claim C5. -/
def bsearch (term : List Char) : List Char → Bool → Bool
  | [], atStart => atStart && term.isPrefixOf [] && rightBd []
  | c :: rest, atStart =>
    (atStart && term.isPrefixOf (c :: rest) && rightBd ((c :: rest).drop term.length)) ||
    (!(isAsciiLetter c) && term.isPrefixOf rest && rightBd (rest.drop term.length)) ||
    bsearch term rest false

/-- Match test of _filter_records_by_term for one record (beals.py lines
166-176), with the term read as a literal string: the record needs a
truthy title (present and non empty), and the lowercased title must
contain the lowercased term bounded by non letters or string boundaries.
Faithful exactly for terms free of regex metacharacters, the only terms
the surrounding development quantifies over; the unescaped interpolation
of an arbitrary term is modelled by termMatchRe below. -/
def termMatch (term : String) (r : Record) : Bool :=
  match r.title with
  | none => false
  | some t => t != "" && bsearch (lowerStr term).data (lowerStr t).data true

/-- Embedding of _filter_records_by_term (beals.py lines 159-178): keep, in
order, the records whose title matches the term. -/
def filter_records_by_term (term : String) (record_list : List Record) : List Record :=
  record_list.filter (termMatch term)

/-- Declarative reading of the term match rule from the spec (section 4.5):
the term occurs in the title as a unit bounded on each side by a non letter
character or the string boundary.  Stated over lowercased character lists;
compared with the operational bsearch in claim C5. -/
def OccursBounded (term title : List Char) : Prop :=
  ∃ pre post, title = pre ++ term ++ post ∧
    (pre = [] ∨ ∃ pre2 c, pre = pre2 ++ [c] ∧ isAsciiLetter c = false) ∧
    (post = [] ∨ ∃ c post2, post = c :: post2 ∧ isAsciiLetter c = false)

/-- Python exceptions surfaced by the evaluator: ValueError from
run_beals/calculate_path/filter_records, AttributeError from
_remove_duplicates, and re.error from compiling the regex pattern into
which the raw term is interpolated (beals.py line 170). -/
inductive Er where
  | valueError (msg : String)
  | attributeError
  | reError
deriving DecidableEq, Repr

/-- Metacharacters of the Python regex syntax.  The braces are compared by
code point. -/
def isReMeta (c : Char) : Bool :=
  c == '.' || c == '^' || c == '$' || c == '*' || c == '+' || c == '?' ||
  c.toNat == 123 || c.toNat == 125 || c == '[' || c == ']' || c == '\\' ||
  c == '|' || c == '(' || c == ')'

/-- Atoms of the interpolated term, as Python re parses the raw term inside
the pattern (^|[^a-zA-Z])term([^a-zA-Z]|$) built at beals.py line 170.  The
term is interpolated without escaping, so its characters are read as regex
syntax.  The model covers the fragment needed here: a plain character is a
literal atom, and a + right after a plain character makes it a one-or-more
atom. -/
inductive RAtom where
  | lit (c : Char)
  | plus (c : Char)
deriving DecidableEq, Repr

/-- Parse the lowered term as the regex fragment it becomes inside the
pattern.  A plain character gives a literal atom; a + after it gives a
one-or-more atom; a leading + mirrors the re.error Python raises for a
quantifier with nothing to repeat, and every other metacharacter is mapped
to reError as well, marking it outside the modelled fragment (the model
assigns those terms no behaviour, and no theorem below depends on them). -/
def parseTermRE : List Char → Except Er (List RAtom)
  | [] => .ok []
  | c :: rest =>
    if isReMeta c then .error .reError
    else
      match rest with
      | [] => .ok [.lit c]
      | c2 :: rest2 =>
        if c2 = '+' then
          match parseTermRE rest2 with
          | .error e => .error e
          | .ok atoms => .ok (.plus c :: atoms)
        else
          match parseTermRE (c2 :: rest2) with
          | .error e => .error e
          | .ok atoms => .ok (.lit c :: atoms)

/-- Backtracking for a one-or-more atom after its first character was
consumed: either hand the current suffix to the continuation, or consume
one more copy of the character and retry. -/
def matchPlusRest (c : Char) (cont : List Char → Bool) : List Char → Bool
  | [] => cont []
  | c2 :: rest => cont (c2 :: rest) || (c2 == c && matchPlusRest c cont rest)

/-- Match a list of term atoms against a prefix of the suffix s and pass
the remainder to the continuation k (the right boundary of the pattern). -/
def matchAtoms : List RAtom → (List Char → Bool) → List Char → Bool
  | [], k, s => k s
  | .lit c :: as, k, s =>
    match s with
    | [] => false
    | c2 :: rest => c2 == c && matchAtoms as k rest
  | .plus c :: as, k, s =>
    match s with
    | [] => false
    | c2 :: rest => c2 == c && matchPlusRest c (matchAtoms as k) rest

/-- re.search of the pattern (^|[^a-zA-Z])atoms([^a-zA-Z]|$): scan every
start position of the title; at position 0 the caret alternative applies,
at every position a non letter character may be consumed as the left
boundary; the right boundary check is rightBd, exactly as in bsearch. -/
def reSearch (atoms : List RAtom) : List Char → Bool → Bool
  | [], atStart => atStart && matchAtoms atoms rightBd []
  | c :: rest, atStart =>
    (atStart && matchAtoms atoms rightBd (c :: rest)) ||
    (!(isAsciiLetter c) && matchAtoms atoms rightBd rest) ||
    reSearch atoms rest false

/-- Faithful model of the per record match test of _filter_records_by_term
(beals.py lines 166-176) including the unescaped interpolation of the raw
term into the regex: the lowered term is parsed as regex syntax and the
title is searched with the resulting atoms; a term outside the modelled
regex fragment surfaces as an error.  On terms free of metacharacters this
agrees with termMatch (proved below). -/
def termMatchRe (term : String) (r : Record) : Except Er Bool :=
  match parseTermRE (lowerStr term).data with
  | .error e => .error e
  | .ok atoms =>
    .ok (match r.title with
      | none => false
      | some t => t != "" && reSearch atoms (lowerStr t).data true)

/-- Python dict assignment d[k] = v: an existing key keeps its position and
receives the new value, a new key is appended at the end.  Python dicts are
insertion ordered, so list(d.values()) is the map over the second
components. -/
def upsert {α β : Type} [DecidableEq α] (k : α) (v : β) : List (α × β) → List (α × β)
  | [] => [(k, v)]
  | (k0, v0) :: rest => if k0 = k then (k0, v) :: rest else (k0, v0) :: upsert k v rest

/-- Dict built by one deduplication loop of _remove_duplicates: insert every
record keyed by key r, in list order. -/
def buildDict {α β : Type} [DecidableEq α] (key : β → α) (l : List β) : List (α × β) :=
  l.foldl (fun d r => upsert (key r) r d) []

/-- First pass of _remove_duplicates (beals.py lines 228-232):
no_duplicates[record.data.get("doi")] = record, then the dict values. -/
def dedup_by_doi (l : List Record) : List Record :=
  (buildDict (fun r => r.doi) l).map Prod.snd

/-- Key of the second pass of _remove_duplicates:
record.data.get("title").lower().  Defined only when the title is present;
the getD default is never read because remove_duplicates guards on
isSome. -/
def lowTitle (r : Record) : String := lowerStr (r.title.getD "")

/-- Embedding of _remove_duplicates (beals.py lines 225-238): collapse by
DOI (last write wins), then collapse by lowercased title (last write wins).
A record whose title is absent makes the second pass raise AttributeError
(None.lower() in line 236), modelled as Except.error. -/
def remove_duplicates (records : List Record) : Except Er (List Record) :=
  let records1 := dedup_by_doi records
  if records1.all (fun r => r.title.isSome) then
    .ok ((buildDict lowTitle records1).map Prod.snd)
  else
    .error .attributeError

/-- The caller supplied query tree (search_query.query.Query): a value (term
string, or the operator name), the operator flag, and the ordered
children.  External input of the evaluator. -/
inductive Query where
  | mk (value : String) (isOp : Bool) (children : List Query)

/-- A BEALSCrossref evaluator node: the fields value, operator and children
copied by BEALSCrossref.__init__ (beals.py lines 29-35). -/
inductive BQ where
  | mk (value : String) (isOp : Bool) (children : List BQ)
deriving Repr

def BQ.value : BQ → String
  | .mk v _ _ => v

def BQ.isOp : BQ → Bool
  | .mk _ o _ => o

def BQ.children : BQ → List BQ
  | .mk _ _ cs => cs

def Query.value : Query → String
  | .mk v _ _ => v

def Query.isOp : Query → Bool
  | .mk _ o _ => o

def Query.children : Query → List Query
  | .mk _ _ cs => cs

mutual
/-- BEALSCrossref.__init__ as a tree copy (beals.py lines 29-35): a pure,
total, recursive copy of the query tree; construction never fails. -/
def ofQuery : Query → BQ
  | .mk v o cs => .mk v o (ofQueryList cs)

def ofQueryList : List Query → List BQ
  | [] => []
  | q :: qs => ofQuery q :: ofQueryList qs
end

/-- Python min over a value and a list, as in line 137 of beals.py. -/
def listMin : Nat → List Nat → Nat
  | m, [] => m
  | m, c :: rest => listMin (min m c) rest

/-- Selection loop at the end of calculate_path (beals.py lines 149-155):
min_len starts at the path length of the first child and is replaced only
by a strictly smaller one, so the first child attaining the minimum wins.
The second component of the accumulator tracks the position of the current
choice, modelling which child object Python returns. -/
def scanMin : List Nat → Nat × Nat → Nat → Nat × Nat
  | [], acc, _ => acc
  | c :: rest, (m, mi), pos =>
    if m > c then scanMin rest (c, pos) (pos + 1) else scanMin rest (m, mi) (pos + 1)

mutual
/-- Embedding of calculate_path (beals.py lines 121-157).  cost is the count
oracle (api.get_len_total for the url built from a term).  The result is
the path length stored on the node, the position of the returned node among
the children, and the returned node itself; a leaf returns itself (the
position 0 is unused in that case).  The position component models Python
object identity: run_beals skips exactly the returned child object. -/
def calculate_path (cost : String → Nat) : BQ → Except Er (Nat × Nat × BQ)
  | .mk v false cs => .ok (cost v, 0, .mk v false cs)
  | .mk v true cs =>
    match cs with
    | [] => .error (.valueError "AndQuery must have at least one child.")
    | c0 :: rest =>
      if v = "AND" then
        match calculate_path cost c0, calc_path_list cost rest with
        | .error e, _ => .error e
        | .ok _, .error e => .error e
        | .ok r0, .ok ns =>
          let costs := r0.1 :: ns
          let pl := listMin r0.1 ns
          let mi := scanMin costs (r0.1, 0) 0
          .ok (pl, mi.2, (c0 :: rest).getD mi.2 c0)
      else if v = "OR" then
        match calculate_path cost c0, calc_path_list cost rest with
        | .error e, _ => .error e
        | .ok _, .error e => .error e
        | .ok r0, .ok ns =>
          let costs := r0.1 :: ns
          let pl := costs.sum
          let mi := scanMin costs (r0.1, 0) 0
          .ok (pl, mi.2, (c0 :: rest).getD mi.2 c0)
      else .error (.valueError "Operator is not yet supported.")

/-- Loop over the children in calculate_path (lines 134-135 and 140-141):
run calculate_path on each child and read back its stored path length. -/
def calc_path_list (cost : String → Nat) : List BQ → Except Er (List Nat)
  | [] => .ok []
  | c :: cs =>
    match calculate_path cost c, calc_path_list cost cs with
    | .error e, _ => .error e
    | .ok _, .error e => .error e
    | .ok r, .ok ns => .ok (r.1 :: ns)
end

/-- First loop of _and_filter (beals.py lines 204-206): successively narrow
the record list by the term of every non operator child, in order. -/
def and_filter_leaves : List BQ → List Record → List Record
  | [], records => records
  | c :: cs, records =>
    if c.isOp then and_filter_leaves cs records
    else and_filter_leaves cs (filter_records_by_term c.value records)

mutual
/-- Embedding of filter_records (beals.py lines 180-199): operator nodes
dispatch to the AND or OR filter, any other operator raises ValueError, a
leaf filters by its term. -/
def filter_records : BQ → List Record → Except Er (List Record)
  | .mk v true cs, parent_records =>
    if v = "AND" then and_filter_ops cs (and_filter_leaves cs parent_records)
    else if v = "OR" then or_filter cs parent_records
    else .error (.valueError "Operator is not yet supported.")
  | .mk v false _, parent_records => .ok (filter_records_by_term v parent_records)

/-- Second loop of _and_filter (beals.py lines 208-211): successively narrow
by filter_records of every operator child, in order. -/
def and_filter_ops : List BQ → List Record → Except Er (List Record)
  | [], records => .ok records
  | c :: cs, records =>
    if c.isOp then
      match filter_records c records with
      | .error e => .error e
      | .ok records1 => and_filter_ops cs records1
    else and_filter_ops cs records

/-- Embedding of _or_filter (beals.py lines 213-223): accumulate, in child
order, the term filter of every non operator child and filter_records of
every operator child, all applied to the same input list. -/
def or_filter : List BQ → List Record → Except Er (List Record)
  | [], _ => .ok []
  | c :: cs, records =>
    if c.isOp then
      match filter_records c records with
      | .error e => .error e
      | .ok r1 =>
        match or_filter cs records with
        | .error e => .error e
        | .ok r2 => .ok (r1 ++ r2)
    else
      match or_filter cs records with
      | .error e => .error e
      | .ok r2 => .ok (filter_records_by_term c.value records ++ r2)
end

/-- Independent filter of every child applied to the same input list, used
to state the claims about the AND and OR filters. -/
def child_filters : List BQ → List Record → Except Er (List (List Record))
  | [], _ => .ok []
  | c :: cs, records =>
    match filter_records c records with
    | .error e => .error e
    | .ok r1 =>
      match child_filters cs records with
      | .error e => .error e
      | .ok rest => .ok (r1 :: rest)

/-- Embedding of retrieve (beals.py lines 49-70) for a leaf term: the remote
service is assumed available (check_availability passes), the count call is
only logged, and the streamed records are confirmed by the local term
filter before being returned.  env is the record oracle. -/
def retrieve (env : String → List Record) (term : String) : List Record :=
  filter_records_by_term term (env term)

/-- AND loop of run_beals (beals.py lines 103-105): apply the filter of each
child to the running record list, in child order, skipping the pivot.  The
Python test c != next_child is object identity; it is rendered positionally
by the index of the child returned by calculate_path. -/
def and_run_fold : List BQ → Nat → Nat → List Record → Except Er (List Record)
  | [], _, _, records => .ok records
  | c :: cs, i, pidx, records =>
    if i = pidx then and_run_fold cs (i + 1) pidx records
    else
      match filter_records c records with
      | .error e => .error e
      | .ok records1 => and_run_fold cs (i + 1) pidx records1

theorem calculate_path_getD (cost : String → Nat) (v : String) (cs : List BQ)
    (n i : Nat) (q : BQ) (h : calculate_path cost (.mk v true cs) = .ok (n, i, q)) :
    ∃ c0 rest, cs = c0 :: rest ∧ q = cs.getD i c0 := by
  cases cs with
  | nil => simp [calculate_path] at h
  | cons c0 rest =>
    refine ⟨c0, rest, rfl, ?_⟩
    simp only [calculate_path] at h
    split at h
    · split at h
      · simp at h
      · simp at h
      · simp only [Except.ok.injEq, Prod.mk.injEq] at h
        obtain ⟨-, h2, h3⟩ := h
        subst h2
        simpa [List.getD] using h3.symm
    · split at h
      · split at h
        · simp at h
        · simp at h
        · simp only [Except.ok.injEq, Prod.mk.injEq] at h
          obtain ⟨-, h2, h3⟩ := h
          subst h2
          simpa [List.getD] using h3.symm
      · simp at h

theorem calculate_path_mem (cost : String → Nat) (v : String) (cs : List BQ)
    (n i : Nat) (q : BQ) (h : calculate_path cost (.mk v true cs) = .ok (n, i, q)) :
    q ∈ cs := by
  obtain ⟨c0, rest, hcs, hq⟩ := calculate_path_getD cost v cs n i q h
  subst hcs
  subst hq
  by_cases hi : i < (c0 :: rest).length
  · rw [List.getD_eq_getElem _ _ hi]
    exact List.getElem_mem hi
  · rw [List.getD_eq_default _ _ (Nat.le_of_not_lt hi)]
    exact List.mem_cons_self c0 rest

mutual
/-- Embedding of run_beals (beals.py lines 88-118).  Besides the final
record list of the node, the result carries the list of terms for which
records were fetched remotely (the get_records calls of retrieve), in call
order; count estimation calls are not part of that list.  A leaf retrieves
and deduplicates; an AND node picks the pivot via calculate_path, runs only
the pivot, filters by the remaining children in order and deduplicates; an
OR node runs every child, concatenates their record lists in child order
and deduplicates; any other operator raises ValueError. -/
def run_beals (env : String → List Record) (cost : String → Nat) :
    BQ → Except Er (List Record × List String)
  | .mk v false _ =>
    match remove_duplicates (retrieve env v) with
    | .error e => .error e
    | .ok recs => .ok (recs, [v])
  | .mk v true cs =>
    if v = "AND" then
      match heq : calculate_path cost (.mk v true cs) with
      | .error e => .error e
      | .ok (_, pidx, pivot) =>
        have hmem : pivot ∈ cs := calculate_path_mem cost v cs _ pidx pivot heq
        match run_beals env cost pivot with
        | .error e => .error e
        | .ok (rs0, log0) =>
          match and_run_fold cs 0 pidx rs0 with
          | .error e => .error e
          | .ok rs1 =>
            match remove_duplicates rs1 with
            | .error e => .error e
            | .ok out => .ok (out, log0)
    else if v = "OR" then
      match run_list env cost cs with
      | .error e => .error e
      | .ok results =>
        match remove_duplicates (results.map Prod.fst).flatten with
        | .error e => .error e
        | .ok out => .ok (out, (results.map Prod.snd).flatten)
    else .error (.valueError "Operator is not yet supported.")
termination_by q => sizeOf q
decreasing_by
  all_goals simp_wf
  all_goals try omega
  all_goals
    (have h2 := List.sizeOf_lt_of_mem hmem
     omega)

/-- OR loop of run_beals (lines 108-112): run every child in order and
collect each record list and retrieval log. -/
def run_list (env : String → List Record) (cost : String → Nat) :
    List BQ → Except Er (List (List Record × List String))
  | [] => .ok []
  | c :: cs =>
    match run_beals env cost c with
    | .error e => .error e
    | .ok r =>
      match run_list env cost cs with
      | .error e => .error e
      | .ok rest => .ok (r :: rest)
termination_by l => sizeOf l
decreasing_by
  all_goals simp_wf <;> omega
end

mutual
/-- Declarative match semantics of a query node against one record, used to
state the set level claims (the match set of a node): a leaf matches by its
term, an AND node when all children match, an OR node when some child
matches.  Only applied to trees whose operator values are AND or OR. -/
def sem : BQ → Record → Bool
  | .mk v false _, r => termMatch v r
  | .mk v true cs, r => if v = "AND" then semAll cs r else semAny cs r

def semAll : List BQ → Record → Bool
  | [], _ => true
  | c :: cs, r => sem c r && semAll cs r

def semAny : List BQ → Record → Bool
  | [], _ => false
  | c :: cs, r => sem c r || semAny cs r
end

mutual
/-- Terms of the leaves of a subtree, in left to right order: the terms a
full evaluation of the subtree may fetch remotely. -/
def leafTerms : BQ → List String
  | .mk v false _ => [v]
  | .mk _ true cs => leafTermsList cs

def leafTermsList : List BQ → List String
  | [] => []
  | c :: cs => leafTerms c ++ leafTermsList cs
end

deriving instance DecidableEq for Except

/-! Term matching: the operational regex scan bsearch against the
declarative bounded occurrence predicate. -/

theorem rightBd_iff (s : List Char) :
    rightBd s = true ↔ s = [] ∨ ∃ c post2, s = c :: post2 ∧ isAsciiLetter c = false := by
  cases s with
  | nil => simp [rightBd]
  | cons c post => simp [rightBd]

theorem isPrefixOf_iff_exists (p s : List Char) :
    p.isPrefixOf s = true ↔ ∃ t, s = p ++ t := by
  rw [ List.isPrefixOf_iff_prefix]
  constructor
  · rintro ⟨t, ht⟩
    exact ⟨t, ht.symm⟩
  · rintro ⟨t, ht⟩
    exact ⟨t, ht.symm⟩

theorem bsearch_false_iff (term : List Char) :
    ∀ s, bsearch term s false = true ↔
      ∃ pre c post, s = pre ++ c :: (term ++ post) ∧ isAsciiLetter c = false ∧
        rightBd post = true := by
  intro s
  induction s with
  | nil =>
    simp only [bsearch, Bool.false_and, Bool.false_or]
    constructor
    · intro h
      simp at h
    · rintro ⟨pre, c, post, h, -, -⟩
      exact absurd h (by simp)
  | cons c rest ih =>
    simp only [bsearch, Bool.false_and, Bool.false_or, Bool.or_eq_true, Bool.and_eq_true]
    constructor
    · rintro (⟨⟨hc, hp⟩, hb⟩ | h)
      · obtain ⟨post, hpost⟩ := (isPrefixOf_iff_exists term rest).mp hp
        refine ⟨[], c, post, by simp [hpost], by simpa using hc, ?_⟩
        rw [hpost, List.drop_left] at hb
        exact hb
      · obtain ⟨pre, c2, post, hs, hc2, hb⟩ := ih.mp h
        exact ⟨c :: pre, c2, post, by simp [hs], hc2, hb⟩
    · rintro ⟨pre, c2, post, hs, hc2, hb⟩
      cases pre with
      | nil =>
        simp only [List.nil_append, List.cons.injEq] at hs
        obtain ⟨hcc, hrest⟩ := hs
        subst hcc
        left
        refine ⟨⟨by simp [hc2], (isPrefixOf_iff_exists term rest).mpr ⟨post, hrest⟩⟩, ?_⟩
        rw [hrest, List.drop_left]
        exact hb
      | cons p0 pre2 =>
        simp only [List.cons_append, List.cons.injEq] at hs
        right
        exact ih.mpr ⟨pre2, c2, post, hs.2, hc2, hb⟩

theorem bsearch_true_split (term s : List Char) :
    bsearch term s true =
      ((term.isPrefixOf s && rightBd (s.drop term.length)) || bsearch term s false) := by
  cases s with
  | nil => simp [bsearch, rightBd]
  | cons c rest => simp [bsearch, Bool.or_assoc]

theorem bsearch_true_iff (term s : List Char) :
    bsearch term s true = true ↔
      (∃ post, s = term ++ post ∧ rightBd post = true) ∨
      (∃ pre c post, s = pre ++ c :: (term ++ post) ∧ isAsciiLetter c = false ∧
        rightBd post = true) := by
  rw [bsearch_true_split]
  simp only [Bool.or_eq_true, Bool.and_eq_true]
  rw [bsearch_false_iff]
  constructor
  · rintro (⟨hp, hb⟩ | h)
    · obtain ⟨post, hpost⟩ := (isPrefixOf_iff_exists term s).mp hp
      left
      refine ⟨post, hpost, ?_⟩
      rw [hpost, List.drop_left] at hb
      exact hb
    · right
      exact h
  · rintro (⟨post, hs, hb⟩ | h)
    · left
      refine ⟨(isPrefixOf_iff_exists term s).mpr ⟨post, hs⟩, ?_⟩
      rw [hs, List.drop_left]
      exact hb
    · right
      exact h

theorem bsearch_iff_occursBounded (term s : List Char) :
    bsearch term s true = true ↔ OccursBounded term s := by
  rw [bsearch_true_iff]
  unfold OccursBounded
  constructor
  · rintro (⟨post, hs, hb⟩ | ⟨pre, c, post, hs, hc, hb⟩)
    · exact ⟨[], post, by simpa using hs, Or.inl rfl, (rightBd_iff post).mp hb⟩
    · exact ⟨pre ++ [c], post, by simp [hs], Or.inr ⟨pre, c, rfl, hc⟩,
        (rightBd_iff post).mp hb⟩
  · rintro ⟨pre, post, hs, hpre | ⟨pre2, c, hpre, hc⟩, hpost⟩
    · left
      subst hpre
      exact ⟨post, by simpa using hs, (rightBd_iff post).mpr hpost⟩
    · right
      subst hpre
      exact ⟨pre2, c, post, by simp [hs], hc, (rightBd_iff post).mpr hpost⟩

/-- Literal term matching against the bounded occurrence rule: under the
literal reading of the term, a record matches iff the term occurs case
insensitively in the title as a unit bounded on each side by a non letter
character or the string boundary; a record lacking a (truthy) title never
matches.  Used by the amended claim C5 below. -/
theorem termMatch_iff_occursBounded (term : String) (r : Record) :
    termMatch term r = true ↔
      ∃ t, r.title = some t ∧ t ≠ "" ∧
        OccursBounded (lowerStr term).data (lowerStr t).data := by
  cases htitle : r.title with
  | none => simp [termMatch, htitle]
  | some t =>
    simp only [termMatch, htitle, Bool.and_eq_true, bne_iff_ne, ne_eq,
      Option.some.injEq]
    rw [bsearch_iff_occursBounded]
    constructor
    · rintro ⟨ht, hb⟩
      exact ⟨t, rfl, ht, hb⟩
    · rintro ⟨t2, ht2, ht, hb⟩
      subst ht2
      exact ⟨ht, hb⟩


set_option maxHeartbeats 1000000 in
theorem parseTermRE_lit : ∀ s : List Char, (∀ c ∈ s, isReMeta c = false) →
    parseTermRE s = .ok (s.map RAtom.lit) := by
  intro s
  induction s with
  | nil =>
    intro h
    rfl
  | cons c rest ih =>
    intro h
    have hc : isReMeta c = false := h c (List.mem_cons_self c rest)
    cases rest with
    | nil => simp [parseTermRE, hc]
    | cons c2 rest2 =>
      have hc2m : isReMeta c2 = false :=
        h c2 (List.mem_cons_of_mem c (List.mem_cons_self c2 rest2))
      have hc2 : c2 ≠ '+' := by
        intro he
        rw [he] at hc2m
        exact absurd hc2m (by decide)
      have hrest : ∀ x ∈ c2 :: rest2, isReMeta x = false :=
        fun x hx => h x (List.mem_cons_of_mem c hx)
      simp [parseTermRE, hc, hc2, ih hrest]

theorem matchAtoms_lit : ∀ (s : List Char) (k : List Char → Bool) (t : List Char),
    matchAtoms (s.map RAtom.lit) k t = (s.isPrefixOf t && k (t.drop s.length)) := by
  intro s
  induction s with
  | nil =>
    intro k t
    simp [matchAtoms, List.isPrefixOf]
  | cons c s2 ih =>
    intro k t
    cases t with
    | nil => simp [matchAtoms, List.isPrefixOf]
    | cons c2 t2 =>
      simp only [List.map_cons, matchAtoms, List.isPrefixOf, List.drop_succ_cons,
        List.length_cons]
      rw [ih k t2]
      by_cases hc : c2 = c
      · subst hc
        simp [Bool.and_assoc]
      · have h1 : (c2 == c) = false := by
          simp [hc]
        have h2 : (c == c2) = false := by
          simp [Ne.symm hc]
        simp [h1, h2]

theorem reSearch_lit : ∀ (t s : List Char) (atStart : Bool),
    reSearch (s.map RAtom.lit) t atStart = bsearch s t atStart := by
  intro t
  induction t with
  | nil =>
    intro s atStart
    simp [reSearch, bsearch, matchAtoms_lit, Bool.and_assoc]
  | cons c rest ih =>
    intro s atStart
    simp only [reSearch, bsearch, matchAtoms_lit, ih, Bool.and_assoc]

/-- C5 counterexample: the raw term is interpolated into the regex pattern
without escaping (beals.py line 170), so a term containing a regex
metacharacter is not matched as a literal bounded unit.  With the term ai+
and the title x aiii x, the compiled pattern (^|[^a-zA-Z])ai+([^a-zA-Z]|$)
matches, the quantifier consuming iii, although the literal term ai+ does
not occur in the title at all, let alone as a bounded unit: the claimed
rule, quantified over every term, is false on the code. -/
theorem C5_counterexample_regex_interpolation :
    termMatchRe "ai+" (Record.mk (some "1") (some "x aiii x")) = .ok true ∧
    ¬ OccursBounded (lowerStr "ai+").data (lowerStr "x aiii x").data := by
  refine ⟨by decide, fun hocc => ?_⟩
  have h2 := (bsearch_iff_occursBounded (lowerStr "ai+").data
    (lowerStr "x aiii x").data).mpr hocc
  exact absurd h2 (by decide)

/-- C5 (amended): for every record and every term free of regex
metacharacters (checked after lowercasing, which cannot introduce any),
the faithful interpolation model agrees with the literal reading, and the
record matches the term iff the term occurs case insensitively in the
title of the record as a unit bounded on each side by a non letter
character or the string boundary; a record lacking a (truthy) title field
never matches, and no error arises.  For terms containing metacharacters
the unescaped interpolation makes the code follow the regex semantics of
the term instead, as the counterexample shows. -/
theorem C5_term_match_rule_amended (term : String) (r : Record)
    (hlit : ∀ c ∈ (lowerStr term).data, isReMeta c = false) :
    ∃ b, termMatchRe term r = .ok b ∧ b = termMatch term r ∧
      (b = true ↔ ∃ t, r.title = some t ∧ t ≠ "" ∧
        OccursBounded (lowerStr term).data (lowerStr t).data) := by
  refine ⟨termMatch term r, ?_, rfl, termMatch_iff_occursBounded term r⟩
  unfold termMatchRe
  rw [parseTermRE_lit (lowerStr term).data hlit]
  cases htitle : r.title with
  | none => simp [termMatch, htitle]
  | some t => simp [termMatch, htitle, reSearch_lit]

theorem C5_term_match_rule_amended_witness :
    ∃ b, termMatchRe "big data" (Record.mk (some "1") (some "the Big Data era")) =
        .ok b ∧
      b = termMatch "big data" (Record.mk (some "1") (some "the Big Data era")) ∧
      (b = true ↔ ∃ t,
        (Record.mk (some "1") (some "the Big Data era")).title = some t ∧ t ≠ "" ∧
        OccursBounded (lowerStr "big data").data (lowerStr t).data) :=
  C5_term_match_rule_amended "big data" (Record.mk (some "1") (some "the Big Data era"))
    (by decide)

/-! Dict lemmas: Python insertion ordered dicts as association lists. -/

theorem mem_upsert {α β : Type} [DecidableEq α] {k : α} {v : β} {d : List (α × β)}
    {p : α × β} (h : p ∈ upsert k v d) : p ∈ d ∨ p = (k, v) := by
  induction d with
  | nil => simpa [upsert] using h
  | cons q rest ih =>
    obtain ⟨k0, v0⟩ := q
    by_cases hk : k0 = k
    · subst hk
      simp only [upsert, eq_self_iff_true, if_true] at h
      simp only [List.mem_cons]
      rcases List.mem_cons.mp h with h | h <;> tauto
    · simp only [upsert, if_neg hk, List.mem_cons] at h
      simp only [List.mem_cons]
      rcases h with h | h
      · tauto
      · rcases ih h with h2 | h2 <;> tauto

theorem upsert_keys_mem {α β : Type} [DecidableEq α] (k k2 : α) (v : β)
    (d : List (α × β)) :
    k2 ∈ (upsert k v d).map Prod.fst ↔ k2 ∈ d.map Prod.fst ∨ k2 = k := by
  induction d with
  | nil => simp [upsert]
  | cons q rest ih =>
    obtain ⟨k0, v0⟩ := q
    by_cases hk : k0 = k
    · subst hk
      simp only [upsert, eq_self_iff_true, if_true, List.map_cons, List.mem_cons]
      tauto
    · simp only [upsert, if_neg hk, List.map_cons, List.mem_cons, ih]
      tauto

theorem upsert_keys_nodup {α β : Type} [DecidableEq α] (k : α) (v : β)
    (d : List (α × β)) (h : (d.map Prod.fst).Nodup) :
    ((upsert k v d).map Prod.fst).Nodup := by
  induction d with
  | nil => simp [upsert]
  | cons q rest ih =>
    obtain ⟨k0, v0⟩ := q
    simp only [List.map_cons, List.nodup_cons] at h
    by_cases hk : k0 = k
    · subst hk
      simp only [upsert, eq_self_iff_true, if_true, List.map_cons, List.nodup_cons]
      exact h
    · simp only [upsert, if_neg hk, List.map_cons, List.nodup_cons]
      refine ⟨?_, ih h.2⟩
      rw [upsert_keys_mem]
      rintro (h2 | h2)
      · exact h.1 h2
      · exact hk h2

theorem upsert_fresh {α β : Type} [DecidableEq α] (k : α) (v : β) (d : List (α × β))
    (h : k ∉ d.map Prod.fst) : upsert k v d = d ++ [(k, v)] := by
  induction d with
  | nil => simp [upsert]
  | cons q rest ih =>
    obtain ⟨k0, v0⟩ := q
    simp only [List.map_cons, List.mem_cons] at h
    push_neg at h
    obtain ⟨h1, h2⟩ := h
    have hne : ¬(k0 = k) := fun h3 => h1 h3.symm
    simp only [upsert, if_neg hne, List.cons_append]
    rw [ih h2]

theorem foldl_upsert_inv {α β : Type} [DecidableEq α] (key : β → α) (l : List β) :
    ∀ acc : List (α × β),
      (acc.map Prod.fst).Nodup → (∀ p ∈ acc, p.1 = key p.2) →
      ((List.foldl (fun d r => upsert (key r) r d) acc l).map Prod.fst).Nodup ∧
      (∀ p ∈ List.foldl (fun d r => upsert (key r) r d) acc l,
        p.1 = key p.2 ∧ (p ∈ acc ∨ p.2 ∈ l)) := by
  induction l with
  | nil =>
    intro acc h1 h2
    exact ⟨h1, fun p hp => ⟨h2 p hp, Or.inl hp⟩⟩
  | cons r rest ih =>
    intro acc h1 h2
    have h1b := upsert_keys_nodup (key r) r acc h1
    have h2b : ∀ p ∈ upsert (key r) r acc, p.1 = key p.2 := by
      intro p hp
      rcases mem_upsert hp with h | h
      · exact h2 p h
      · rw [h]
    obtain ⟨ha, hb⟩ := ih (upsert (key r) r acc) h1b h2b
    refine ⟨ha, fun p hp => ?_⟩
    obtain ⟨hk, hm⟩ := hb p hp
    refine ⟨hk, ?_⟩
    rcases hm with h | h
    · rcases mem_upsert h with h3 | h3
      · exact Or.inl h3
      · right
        rw [h3]
        exact List.mem_cons_self r rest
    · exact Or.inr (List.mem_cons_of_mem r h)

theorem foldl_upsert_key_persists {α β : Type} [DecidableEq α] (key : β → α)
    (l : List β) (k : α) :
    ∀ acc, k ∈ acc.map Prod.fst →
      k ∈ (List.foldl (fun d r => upsert (key r) r d) acc l).map Prod.fst := by
  induction l with
  | nil => exact fun acc h => h
  | cons r rest ih =>
    intro acc h
    exact ih _ ((upsert_keys_mem (key r) k r acc).mpr (Or.inl h))

theorem foldl_upsert_key_present {α β : Type} [DecidableEq α] (key : β → α)
    (l : List β) (r : β) (hr : r ∈ l) :
    ∀ acc, key r ∈ (List.foldl (fun d x => upsert (key x) x d) acc l).map Prod.fst := by
  induction l with
  | nil => cases hr
  | cons x rest ih =>
    intro acc
    rcases List.mem_cons.mp hr with h | h
    · subst h
      exact foldl_upsert_key_persists key rest (key r) _
        ((upsert_keys_mem (key r) (key r) r acc).mpr (Or.inr rfl))
    · exact ih h _

theorem foldl_upsert_fresh {α β : Type} [DecidableEq α] (key : β → α) (l : List β) :
    ∀ acc, (acc.map Prod.fst ++ l.map key).Nodup →
      List.foldl (fun d r => upsert (key r) r d) acc l =
        acc ++ l.map (fun r => (key r, r)) := by
  induction l with
  | nil => simp
  | cons r rest ih =>
    intro acc h
    have hfresh : key r ∉ acc.map Prod.fst := by
      intro hmem
      rcases List.nodup_append.mp h with ⟨-, -, hdisj⟩
      exact hdisj hmem (by simp)
    rw [List.foldl_cons, upsert_fresh _ _ _ hfresh, ih, List.append_assoc]
    · simp
    · rw [List.map_append, List.append_assoc]
      simpa using h

theorem buildDict_keys_nodup {α β : Type} [DecidableEq α] (key : β → α) (l : List β) :
    ((buildDict key l).map Prod.fst).Nodup :=
  (foldl_upsert_inv key l [] (by simp) (by simp)).1

theorem buildDict_pair_key {α β : Type} [DecidableEq α] (key : β → α) (l : List β)
    {p : α × β} (hp : p ∈ buildDict key l) : p.1 = key p.2 :=
  ((foldl_upsert_inv key l [] (by simp) (by simp)).2 p hp).1

theorem buildDict_pair_mem {α β : Type} [DecidableEq α] (key : β → α) (l : List β)
    {p : α × β} (hp : p ∈ buildDict key l) : p.2 ∈ l := by
  rcases ((foldl_upsert_inv key l [] (by simp) (by simp)).2 p hp).2 with h | h
  · exact absurd h (List.not_mem_nil p)
  · exact h

theorem buildDict_values_sub {α β : Type} [DecidableEq α] (key : β → α) (l : List β)
    {r : β} (hr : r ∈ (buildDict key l).map Prod.snd) : r ∈ l := by
  obtain ⟨p, hp, hpr⟩ := List.mem_map.mp hr
  rw [← hpr]
  exact buildDict_pair_mem key l hp

theorem buildDict_keys_eq_map {α β : Type} [DecidableEq α] (key : β → α) (l : List β) :
    (buildDict key l).map Prod.fst = ((buildDict key l).map Prod.snd).map key := by
  rw [List.map_map]
  exact List.map_congr_left (fun p hp => buildDict_pair_key key l hp)

theorem buildDict_values_keys_nodup {α β : Type} [DecidableEq α] (key : β → α)
    (l : List β) : (((buildDict key l).map Prod.snd).map key).Nodup := by
  rw [← buildDict_keys_eq_map]
  exact buildDict_keys_nodup key l

theorem buildDict_values_mem {α β : Type} [DecidableEq α] (key : β → α) (l : List β)
    (hinj : ∀ a ∈ l, ∀ b ∈ l, key a = key b → a = b) (r : β) :
    r ∈ (buildDict key l).map Prod.snd ↔ r ∈ l := by
  constructor
  · exact buildDict_values_sub key l
  · intro hr
    have hkey := foldl_upsert_key_present key l r hr []
    obtain ⟨p, hp, hpk⟩ := List.mem_map.mp hkey
    have h1 := buildDict_pair_key key l hp
    have h2 : p.2 ∈ l := buildDict_pair_mem key l hp
    have h3 : p.2 = r := hinj p.2 h2 r hr (by rw [← h1, hpk])
    exact List.mem_map.mpr ⟨p, hp, h3⟩

theorem buildDict_fresh {α β : Type} [DecidableEq α] (key : β → α) (l : List β)
    (h : (l.map key).Nodup) : buildDict key l = l.map (fun r => (key r, r)) := by
  have h2 := foldl_upsert_fresh key l [] (by simpa using h)
  simpa [buildDict] using h2

theorem buildDict_values_fresh {α β : Type} [DecidableEq α] (key : β → α) (l : List β)
    (h : (l.map key).Nodup) : (buildDict key l).map Prod.snd = l := by
  rw [buildDict_fresh key l h, List.map_map]
  have h2 : ∀ r ∈ l, (Prod.snd ∘ fun x => (key x, x)) r = r := fun r _ => rfl
  rw [List.map_congr_left h2, List.map_id']

theorem buildDict_reinsert {α β : Type} [DecidableEq α] (key : β → α) (l : List β) :
    buildDict key ((buildDict key l).map Prod.snd) = buildDict key l := by
  rw [buildDict_fresh key _ (buildDict_values_keys_nodup key l), List.map_map]
  have h : ∀ p ∈ buildDict key l, ((fun r => (key r, r)) ∘ Prod.snd) p = p := by
    intro p hp
    obtain ⟨a, b⟩ := p
    have h1 : a = key b := buildDict_pair_key key l hp
    simp [Function.comp, h1]
  rw [List.map_congr_left h, List.map_id']

theorem buildDict_append {α β : Type} [DecidableEq α] (key : β → α) (xs ys : List β) :
    buildDict key (xs ++ ys) =
      ys.foldl (fun d r => upsert (key r) r d) (buildDict key xs) :=
  List.foldl_append _ _ xs ys

theorem buildDict_reinsert_append {α β : Type} [DecidableEq α] (key : β → α)
    (xs ys : List β) :
    buildDict key ((buildDict key xs).map Prod.snd ++ ys) = buildDict key (xs ++ ys) := by
  rw [buildDict_append, buildDict_append, buildDict_reinsert]

/-! Properties of remove_duplicates. -/

theorem dedup_by_doi_sub {l : List Record} {r : Record} (h : r ∈ dedup_by_doi l) :
    r ∈ l :=
  buildDict_values_sub _ l h

theorem dedup_by_doi_nodup (l : List Record) :
    ((dedup_by_doi l).map (fun r => r.doi)).Nodup :=
  buildDict_values_keys_nodup (fun r => r.doi) l

theorem remove_duplicates_ok_iff (l out : List Record) :
    remove_duplicates l = .ok out ↔
      (dedup_by_doi l).all (fun r => r.title.isSome) = true ∧
      out = (buildDict lowTitle (dedup_by_doi l)).map Prod.snd := by
  by_cases h : (dedup_by_doi l).all (fun r => r.title.isSome) = true
  · simp [remove_duplicates, h, eq_comm]
  · simp [remove_duplicates, h]

theorem remove_duplicates_sub {l out : List Record}
    (h : remove_duplicates l = .ok out) : ∀ r ∈ out, r ∈ l := by
  rw [remove_duplicates_ok_iff] at h
  intro r hr
  rw [h.2] at hr
  exact dedup_by_doi_sub (buildDict_values_sub _ _ hr)

theorem remove_duplicates_lowTitle_nodup {l out : List Record}
    (h : remove_duplicates l = .ok out) : (out.map lowTitle).Nodup := by
  rw [remove_duplicates_ok_iff] at h
  rw [h.2]
  exact buildDict_values_keys_nodup lowTitle _

theorem remove_duplicates_titles {l out : List Record}
    (h : remove_duplicates l = .ok out) : ∀ r ∈ out, r.title.isSome := by
  rw [remove_duplicates_ok_iff] at h
  intro r hr
  rw [h.2] at hr
  exact List.all_eq_true.mp h.1 r (buildDict_values_sub _ _ hr)

theorem remove_duplicates_doi_nodup {l out : List Record}
    (h : remove_duplicates l = .ok out) : (out.map (fun r => r.doi)).Nodup := by
  have hnd : out.Nodup :=
    List.Nodup.of_map lowTitle (remove_duplicates_lowTitle_nodup h)
  rw [remove_duplicates_ok_iff] at h
  have hsub : ∀ r ∈ out, r ∈ dedup_by_doi l := by
    intro r hr
    rw [h.2] at hr
    exact buildDict_values_sub _ _ hr
  have hinj : ∀ a ∈ dedup_by_doi l, ∀ b ∈ dedup_by_doi l, a.doi = b.doi → a = b :=
    List.inj_on_of_nodup_map (dedup_by_doi_nodup l)
  exact List.Nodup.map_on
    (fun a ha b hb hab => hinj a (hsub a ha) b (hsub b hb) hab) hnd

theorem remove_duplicates_idem {l out : List Record}
    (h : remove_duplicates l = .ok out) : remove_duplicates out = .ok out := by
  have hdoi := remove_duplicates_doi_nodup h
  have htitle := remove_duplicates_lowTitle_nodup h
  have hsome := remove_duplicates_titles h
  have h1 : dedup_by_doi out = out := buildDict_values_fresh _ out hdoi
  rw [remove_duplicates_ok_iff, h1]
  refine ⟨List.all_eq_true.mpr hsome, ?_⟩
  rw [buildDict_values_fresh lowTitle out htitle]

theorem remove_duplicates_ok_of_inj {l : List Record}
    (hd : ∀ a ∈ l, ∀ b ∈ l, a.doi = b.doi → a = b)
    (ht : ∀ a ∈ l, ∀ b ∈ l, lowTitle a = lowTitle b → a = b)
    (hs : ∀ r ∈ l, r.title.isSome) :
    ∃ out, remove_duplicates l = .ok out ∧ ∀ r, (r ∈ out ↔ r ∈ l) := by
  have hmem1 : ∀ r, r ∈ dedup_by_doi l ↔ r ∈ l := fun r => by
    unfold dedup_by_doi
    exact buildDict_values_mem (fun x => x.doi) l hd r
  have hall : (dedup_by_doi l).all (fun r => r.title.isSome) = true :=
    List.all_eq_true.mpr (fun r hr => hs r ((hmem1 r).mp hr))
  have ht1 : ∀ a ∈ dedup_by_doi l, ∀ b ∈ dedup_by_doi l, lowTitle a = lowTitle b → a = b :=
    fun a ha b hb hab => ht a ((hmem1 a).mp ha) b ((hmem1 b).mp hb) hab
  have hmem2 : ∀ r, r ∈ (buildDict lowTitle (dedup_by_doi l)).map Prod.snd ↔
      r ∈ dedup_by_doi l :=
    buildDict_values_mem lowTitle (dedup_by_doi l) ht1
  refine ⟨(buildDict lowTitle (dedup_by_doi l)).map Prod.snd, ?_, ?_⟩
  · rw [remove_duplicates_ok_iff]
    exact ⟨hall, rfl⟩
  · intro r
    rw [hmem2 r, hmem1 r]

/-- C9: deduplication is idempotent; on every record list on which the
two-pass deduplication completes, applying it to its own output returns
that output unchanged. -/
theorem C9_remove_duplicates_idempotent (l out : List Record)
    (h : remove_duplicates l = .ok out) : remove_duplicates out = .ok out :=
  remove_duplicates_idem h

theorem C9_remove_duplicates_idempotent_witness :
    remove_duplicates [Record.mk (some "d1") (some "T"), Record.mk (some "d1") (some "U")] =
      .ok [Record.mk (some "d1") (some "U")] ∧
    remove_duplicates [Record.mk (some "d1") (some "U")] =
      .ok [Record.mk (some "d1") (some "U")] :=
  ⟨by decide, C9_remove_duplicates_idempotent
    [Record.mk (some "d1") (some "T"), Record.mk (some "d1") (some "U")]
    [Record.mk (some "d1") (some "U")] (by decide)⟩

/-- C10: whenever deduplication completes, the output has pairwise distinct
DOI values and pairwise distinct lowercased titles, and every surviving
record is an element of the input list. -/
theorem C10_dedup_output_invariants (l out : List Record)
    (h : remove_duplicates l = .ok out) :
    (out.map (fun r => r.doi)).Nodup ∧ (out.map lowTitle).Nodup ∧ ∀ r ∈ out, r ∈ l :=
  ⟨remove_duplicates_doi_nodup h, remove_duplicates_lowTitle_nodup h,
    remove_duplicates_sub h⟩

theorem C10_dedup_output_invariants_witness :
    remove_duplicates [Record.mk (some "1") (some "A"), Record.mk (some "1") (some "B"),
        Record.mk (some "2") (some "b")] = .ok [Record.mk (some "2") (some "b")] ∧
    (([Record.mk (some "2") (some "b")].map (fun r => r.doi)).Nodup ∧
      ([Record.mk (some "2") (some "b")].map lowTitle).Nodup ∧
      ∀ r ∈ [Record.mk (some "2") (some "b")],
        r ∈ [Record.mk (some "1") (some "A"), Record.mk (some "1") (some "B"),
          Record.mk (some "2") (some "b")]) :=
  ⟨by decide, C10_dedup_output_invariants _ _ (by decide)⟩

/-- C7: evidence that the claim describes the intended behaviour but the
code deviates for a missing title.  A record with a missing DOI is indeed
keyed by the null-like key and at most one DOI-less record survives, with
no error; but a record with a missing title makes the second deduplication
pass call None.lower(), raising AttributeError, contrary to the claim that
no exception is raised. -/
theorem C7_dedup_missing_fields :
    remove_duplicates [Record.mk (some "10.1/x") none] = .error .attributeError ∧
    remove_duplicates [Record.mk none (some "A"), Record.mk none (some "B")] =
      .ok [Record.mk none (some "B")] := by
  decide

/-! Cost estimation: listMin and scanMin facts, claim C2. -/

theorem listMin_le_init (m : Nat) (l : List Nat) : listMin m l ≤ m := by
  induction l generalizing m with
  | nil => simp [listMin]
  | cons c rest ih =>
    rw [listMin]
    exact le_trans (ih (min m c)) (min_le_left m c)

theorem listMin_le_mem (m : Nat) (l : List Nat) : ∀ x ∈ l, listMin m l ≤ x := by
  induction l generalizing m with
  | nil =>
    intro x hx
    cases hx
  | cons c rest ih =>
    intro x hx
    rw [listMin]
    rcases List.mem_cons.mp hx with h | h
    · subst h
      exact le_trans (listMin_le_init _ _) (min_le_right m x)
    · exact ih (min m c) x h

theorem listMin_mem_or_init (m : Nat) (l : List Nat) :
    listMin m l = m ∨ listMin m l ∈ l := by
  induction l generalizing m with
  | nil => exact Or.inl rfl
  | cons c rest ih =>
    rw [listMin]
    rcases ih (min m c) with h | h
    · rcases Nat.le_total m c with hmc | hmc
      · left
        rw [h, Nat.min_eq_left hmc]
      · right
        rw [h, Nat.min_eq_right hmc]
        exact List.mem_cons_self c rest
    · exact Or.inr (List.mem_cons_of_mem c h)

theorem scanMin_spec (l : List Nat) :
    ∀ m mi pos,
      (scanMin l (m, mi) pos).1 = listMin m l ∧
      (((scanMin l (m, mi) pos).2 = mi ∧ (scanMin l (m, mi) pos).1 = m ∧
          ∀ x ∈ l, m ≤ x) ∨
        (∃ k, k < l.length ∧ (scanMin l (m, mi) pos).2 = pos + k ∧
          l.getD k 0 = (scanMin l (m, mi) pos).1 ∧ (scanMin l (m, mi) pos).1 < m ∧
          ∀ j < k, (scanMin l (m, mi) pos).1 < l.getD j 0)) := by
  induction l with
  | nil =>
    intro m mi pos
    refine ⟨rfl, Or.inl ⟨rfl, rfl, ?_⟩⟩
    intro x hx
    cases hx
  | cons c rest ih =>
    intro m mi pos
    by_cases hmc : m > c
    · have hrw : scanMin (c :: rest) (m, mi) pos = scanMin rest (c, pos) (pos + 1) := by
        rw [scanMin, if_pos hmc]
      obtain ⟨h1, h2⟩ := ih c pos (pos + 1)
      rw [hrw]
      constructor
      · rw [h1, listMin, Nat.min_eq_right (le_of_lt hmc)]
      · rcases h2 with ⟨ha, hb, hc2⟩ | ⟨k, hk, ha, hb, hc2, hd⟩
        · right
          refine ⟨0, by simp, by omega, ?_, by omega, ?_⟩
          · simpa using hb.symm
          · intro j hj
            omega
        · right
          refine ⟨k + 1, by simpa using hk, by omega, ?_, by omega, ?_⟩
          · simpa [List.getD_cons_succ] using hb
          · intro j hj
            cases j with
            | zero => simpa using (by omega : (scanMin rest (c, pos) (pos + 1)).1 < c)
            | succ j2 => simpa [List.getD_cons_succ] using hd j2 (by omega)
    · have hrw : scanMin (c :: rest) (m, mi) pos = scanMin rest (m, mi) (pos + 1) := by
        rw [scanMin, if_neg hmc]
      obtain ⟨h1, h2⟩ := ih m mi (pos + 1)
      rw [hrw]
      constructor
      · rw [h1, listMin, Nat.min_eq_left (by omega)]
      · rcases h2 with ⟨ha, hb, hc2⟩ | ⟨k, hk, ha, hb, hc2, hd⟩
        · left
          refine ⟨ha, hb, ?_⟩
          intro x hx
          rcases List.mem_cons.mp hx with h | h
          · omega
          · exact hc2 x h
        · right
          refine ⟨k + 1, by simpa using hk, by omega, ?_, hc2, ?_⟩
          · simpa [List.getD_cons_succ] using hb
          · intro j hj
            cases j with
            | zero => simpa using (by omega : (scanMin rest (m, mi) (pos + 1)).1 < c)
            | succ j2 => simpa [List.getD_cons_succ] using hd j2 (by omega)

theorem calculate_path_and_inv (cost : String → Nat) (cs : List BQ) (n i : Nat) (q : BQ)
    (h : calculate_path cost (.mk "AND" true cs) = .ok (n, i, q)) :
    ∃ c0 rest r0 ns, cs = c0 :: rest ∧
      calculate_path cost c0 = .ok r0 ∧ calc_path_list cost rest = .ok ns ∧
      n = listMin r0.1 ns ∧
      i = (scanMin (r0.1 :: ns) (r0.1, 0) 0).2 ∧ q = cs.getD i c0 := by
  cases cs with
  | nil => simp [calculate_path] at h
  | cons c0 rest =>
    simp only [calculate_path] at h
    rw [if_pos trivial] at h
    split at h
    · simp at h
    · simp at h
    · rename_i r0 ns h1 h2
      simp only [Except.ok.injEq, Prod.mk.injEq] at h
      obtain ⟨hn, hi, hq⟩ := h
      subst hn
      subst hi
      subst hq
      exact ⟨c0, rest, r0, ns, rfl, h1, h2, rfl, rfl, by simp [List.getD]⟩

theorem calculate_path_or_inv (cost : String → Nat) (cs : List BQ) (n i : Nat) (q : BQ)
    (h : calculate_path cost (.mk "OR" true cs) = .ok (n, i, q)) :
    ∃ c0 rest r0 ns, cs = c0 :: rest ∧
      calculate_path cost c0 = .ok r0 ∧ calc_path_list cost rest = .ok ns ∧
      n = (r0.1 :: ns).sum ∧
      i = (scanMin (r0.1 :: ns) (r0.1, 0) 0).2 ∧ q = cs.getD i c0 := by
  cases cs with
  | nil => simp [calculate_path] at h
  | cons c0 rest =>
    simp only [calculate_path] at h
    rw [if_neg (by decide), if_pos trivial] at h
    split at h
    · simp at h
    · simp at h
    · rename_i r0 ns h1 h2
      simp only [Except.ok.injEq, Prod.mk.injEq] at h
      obtain ⟨hn, hi, hq⟩ := h
      subst hn
      subst hi
      subst hq
      exact ⟨c0, rest, r0, ns, rfl, h1, h2, rfl, rfl, by simp [List.getD]⟩

theorem calc_path_list_length (cost : String → Nat) :
    ∀ (cs : List BQ) (ns : List Nat),
      calc_path_list cost cs = .ok ns → ns.length = cs.length := by
  intro cs
  induction cs with
  | nil =>
    intro ns h
    simp only [calc_path_list, Except.ok.injEq] at h
    subst h
    rfl
  | cons c rest ih =>
    intro ns h
    simp only [calc_path_list] at h
    split at h
    · simp at h
    · simp at h
    · rename_i r2 ns2 h3 h4
      simp only [Except.ok.injEq] at h
      rw [← h]
      simpa using ih ns2 h4

/-- C2: cost estimation.  For an AND node with children, the stored cost is
the minimum of the costs of the children (as computed by calc_path_list),
and the returned node is the child at the first position attaining that
minimum; for an OR node with children, the stored cost is the sum of the
costs of the children; for a leaf, the stored cost is the remote count for
its term and the returned node is the leaf itself. -/
theorem C2_calculate_path_costs (cost : String → Nat) :
    (∀ cs n i q, calculate_path cost (.mk "AND" true cs) = .ok (n, i, q) →
      ∃ costs, calc_path_list cost cs = .ok costs ∧
        n ∈ costs ∧ (∀ x ∈ costs, n ≤ x) ∧
        i < cs.length ∧ costs.getD i 0 = n ∧ (∀ j < i, n < costs.getD j 0) ∧
        ∀ d, q = cs.getD i d) ∧
    (∀ cs n i q, calculate_path cost (.mk "OR" true cs) = .ok (n, i, q) →
      ∃ costs, calc_path_list cost cs = .ok costs ∧ n = costs.sum) ∧
    (∀ v cs, calculate_path cost (.mk v false cs) = .ok (cost v, 0, .mk v false cs)) := by
  refine ⟨?_, ?_, fun v cs => rfl⟩
  · intro cs n i q h
    obtain ⟨c0, rest, r0, ns, hcs, h1, h2, hn, hi, hq⟩ :=
      calculate_path_and_inv cost cs n i q h
    subst hcs
    have hlen3 : ns.length = rest.length := calc_path_list_length cost rest ns h2
    obtain ⟨hs1, hs2⟩ := scanMin_spec (r0.1 :: ns) r0.1 0 0
    have hval : (scanMin (r0.1 :: ns) (r0.1, 0) 0).1 = n := by
      rw [hs1, hn, listMin]
      simp
    have hlen : i < (c0 :: rest).length := by
      rcases hs2 with ⟨ha, -, -⟩ | ⟨k, hk, ha, -, -, -⟩
      · rw [hi, ha]
        simp
      · rw [hi, ha]
        simp only [List.length_cons] at hk ⊢
        omega
    refine ⟨r0.1 :: ns, by simp [calc_path_list, h1, h2], ?_, ?_, hlen, ?_, ?_, ?_⟩
    · rcases listMin_mem_or_init r0.1 ns with h3 | h3
      · rw [hn, h3]
        exact List.mem_cons_self _ _
      · rw [hn]
        exact List.mem_cons_of_mem _ h3
    · intro x hx
      rcases List.mem_cons.mp hx with h3 | h3
      · rw [hn, h3]
        exact listMin_le_init _ _
      · rw [hn]
        exact listMin_le_mem _ _ x h3
    · rcases hs2 with ⟨ha, hb, -⟩ | ⟨k, hk, ha, hb, -, -⟩
      · rw [hi, ha]
        simp only [List.getD_cons_zero]
        rw [← hval, hb]
      · rw [hi, ha]
        simpa [hval] using hb
    · rcases hs2 with ⟨ha, -, -⟩ | ⟨k, hk, ha, hb, hc, hd⟩
      · rw [hi, ha]
        intro j hj
        omega
      · rw [hi, ha]
        intro j hj
        have h5 := hd j (by omega)
        rw [hval] at h5
        exact h5
    · intro d
      rw [hq, List.getD_eq_getElem _ _ hlen, List.getD_eq_getElem _ _ hlen]
  · intro cs n i q h
    obtain ⟨c0, rest, r0, ns, hcs, h1, h2, hn, -, -⟩ :=
      calculate_path_or_inv cost cs n i q h
    subst hcs
    exact ⟨r0.1 :: ns, by simp [calc_path_list, h1, h2], hn⟩

theorem C2_calculate_path_costs_witness :
    (∃ costs, calc_path_list (fun t => t.length)
        [BQ.mk "bbb" false [], BQ.mk "a" false [], BQ.mk "xx" false []] = .ok costs ∧
      1 ∈ costs ∧ (∀ x ∈ costs, 1 ≤ x) ∧
      1 < [BQ.mk "bbb" false [], BQ.mk "a" false [], BQ.mk "xx" false []].length ∧
      costs.getD 1 0 = 1 ∧ (∀ j < 1, 1 < costs.getD j 0) ∧
      ∀ d, BQ.mk "a" false [] =
        [BQ.mk "bbb" false [], BQ.mk "a" false [], BQ.mk "xx" false []].getD 1 d) ∧
    (∃ costs, calc_path_list (fun t => t.length)
        [BQ.mk "bbb" false [], BQ.mk "a" false []] = .ok costs ∧ 4 = costs.sum) ∧
    calculate_path (fun t => t.length) (BQ.mk "ai" false []) =
      .ok ((fun t => t.length) "ai", 0, BQ.mk "ai" false []) :=
  ⟨(C2_calculate_path_costs (fun t => t.length)).1 _ 1 1 _ rfl,
   (C2_calculate_path_costs (fun t => t.length)).2.1 _ 4 1 (BQ.mk "a" false []) rfl,
   (C2_calculate_path_costs (fun t => t.length)).2.2 "ai" []⟩

/-! Local filtering: membership characterisations. -/

theorem mem_filter_records_by_term (t : String) (l : List Record) (r : Record) :
    r ∈ filter_records_by_term t l ↔ r ∈ l ∧ termMatch t r = true := by
  simp [filter_records_by_term, List.mem_filter]

theorem semAll_iff (cs : List BQ) (r : Record) :
    semAll cs r = true ↔ ∀ c ∈ cs, sem c r = true := by
  induction cs with
  | nil => simp [semAll]
  | cons c rest ih => simp [semAll, Bool.and_eq_true, ih]

theorem semAny_iff (cs : List BQ) (r : Record) :
    semAny cs r = true ↔ ∃ c ∈ cs, sem c r = true := by
  induction cs with
  | nil => simp [semAny]
  | cons c rest ih => simp [semAny, Bool.or_eq_true, ih]

theorem sem_leaf {c : BQ} (h : c.isOp = false) (r : Record) :
    sem c r = termMatch c.value r := by
  cases c with
  | mk v o cs =>
    cases o
    · rfl
    · simp [BQ.isOp] at h

theorem sem_and (v : String) (cs : List BQ) (r : Record) (hv : v = "AND") :
    sem (.mk v true cs) r = semAll cs r := by
  subst hv
  rfl

theorem sem_or_like (v : String) (cs : List BQ) (r : Record) (hv : v ≠ "AND") :
    sem (.mk v true cs) r = semAny cs r := by
  simp [sem, hv]

theorem filter_records_leaf {c : BQ} (h : c.isOp = false) (l : List Record) :
    filter_records c l = .ok (filter_records_by_term c.value l) := by
  cases c with
  | mk v o cs =>
    cases o
    · rfl
    · simp [BQ.isOp] at h

theorem and_filter_leaves_mem (cs : List BQ) :
    ∀ (l : List Record) (r : Record),
      r ∈ and_filter_leaves cs l ↔
        r ∈ l ∧ ∀ c ∈ cs, c.isOp = false → termMatch c.value r = true := by
  induction cs with
  | nil => simp [and_filter_leaves]
  | cons c rest ih =>
    intro l r
    by_cases hop : c.isOp
    · rw [and_filter_leaves, if_pos hop, ih]
      simp only [List.forall_mem_cons]
      constructor
      · rintro ⟨h1, h2⟩
        exact ⟨h1, fun hf => absurd hop (by simp [hf]), h2⟩
      · rintro ⟨h1, -, h2⟩
        exact ⟨h1, h2⟩
    · rw [and_filter_leaves, if_neg hop, ih]
      simp only [List.forall_mem_cons, mem_filter_records_by_term]
      constructor
      · rintro ⟨⟨h1, h2⟩, h3⟩
        exact ⟨h1, fun _ => h2, h3⟩
      · rintro ⟨h1, h2, h3⟩
        exact ⟨⟨h1, h2 (by simpa using hop)⟩, h3⟩

theorem filter_records_and_eq (cs : List BQ) (l : List Record) :
    filter_records (.mk "AND" true cs) l = and_filter_ops cs (and_filter_leaves cs l) :=
  rfl

theorem filter_records_or_eq (cs : List BQ) (l : List Record) :
    filter_records (.mk "OR" true cs) l = or_filter cs l :=
  rfl

theorem filter_sem_main : ∀ N : Nat,
    (∀ q l out, sizeOf q ≤ N → filter_records q l = .ok out →
      ∀ r, r ∈ out ↔ r ∈ l ∧ sem q r = true) ∧
    (∀ cs l out, sizeOf cs ≤ N → and_filter_ops cs l = .ok out →
      ∀ r, r ∈ out ↔ r ∈ l ∧ ∀ c ∈ cs, c.isOp = true → sem c r = true) ∧
    (∀ cs l out, sizeOf cs ≤ N → or_filter cs l = .ok out →
      ∀ r, r ∈ out ↔ r ∈ l ∧ ∃ c ∈ cs, sem c r = true) := by
  intro N
  induction N with
  | zero =>
    refine ⟨?_, ?_, ?_⟩
    · intro q l out hsz
      exfalso
      cases q
      simp only [BQ.mk.sizeOf_spec] at hsz
      omega
    · intro cs l out hsz
      exfalso
      cases cs with
      | nil =>
        simp only [List.nil.sizeOf_spec] at hsz
        omega
      | cons c rest =>
        simp only [List.cons.sizeOf_spec] at hsz
        omega
    · intro cs l out hsz
      exfalso
      cases cs with
      | nil =>
        simp only [List.nil.sizeOf_spec] at hsz
        omega
      | cons c rest =>
        simp only [List.cons.sizeOf_spec] at hsz
        omega
  | succ N ih =>
    obtain ⟨ihf, iha, iho⟩ := ih
    refine ⟨?_, ?_, ?_⟩
    · intro q l out hsz h r
      cases q with
      | mk v op cs =>
        cases op
        · simp only [filter_records, Except.ok.injEq] at h
          subst h
          rw [mem_filter_records_by_term]
          exact Iff.rfl
        · have hszcs : sizeOf cs ≤ N := by
            simp only [BQ.mk.sizeOf_spec] at hsz
            omega
          by_cases hv : v = "AND"
          · subst hv
            rw [filter_records_and_eq] at h
            rw [iha cs _ out hszcs h r, and_filter_leaves_mem,
              sem_and "AND" cs r rfl, semAll_iff]
            constructor
            · rintro ⟨⟨h1, h2⟩, h3⟩
              refine ⟨h1, fun c hc => ?_⟩
              rcases hb : c.isOp with hf | ht
              · rw [sem_leaf hb]
                exact h2 c hc hb
              · exact h3 c hc hb
            · rintro ⟨h1, h2⟩
              refine ⟨⟨h1, fun c hc hb => ?_⟩, fun c hc hb => h2 c hc⟩
              rw [← sem_leaf hb]
              exact h2 c hc
          · by_cases hv2 : v = "OR"
            · subst hv2
              rw [filter_records_or_eq] at h
              rw [iho cs l out hszcs h r, sem_or_like "OR" cs r (by decide), semAny_iff]
            · exfalso
              simp only [filter_records, if_neg hv, if_neg hv2] at h
              exact absurd h (by simp)
    · intro cs l out hsz h r
      cases cs with
      | nil =>
        simp only [and_filter_ops, Except.ok.injEq] at h
        subst h
        simp
      | cons c rest =>
        have hszc : sizeOf c ≤ N := by
          simp only [List.cons.sizeOf_spec] at hsz
          omega
        have hszrest : sizeOf rest ≤ N := by
          simp only [List.cons.sizeOf_spec] at hsz
          omega
        by_cases hop : c.isOp
        · simp only [and_filter_ops, if_pos hop] at h
          split at h
          · exact absurd h (by simp)
          · rename_i l1 hfc
            rw [iha rest l1 out hszrest h r, ihf c l l1 hszc hfc r]
            simp only [List.forall_mem_cons, hop]
            constructor
            · rintro ⟨⟨h1, h2⟩, h3⟩
              exact ⟨h1, fun _ => h2, h3⟩
            · rintro ⟨h1, h2, h3⟩
              exact ⟨⟨h1, h2 trivial⟩, h3⟩
        · simp only [and_filter_ops, if_neg hop] at h
          rw [iha rest l out hszrest h r]
          simp only [List.forall_mem_cons]
          constructor
          · rintro ⟨h1, h2⟩
            refine ⟨h1, fun ht => absurd ht (by simpa using hop), h2⟩
          · rintro ⟨h1, -, h2⟩
            exact ⟨h1, h2⟩
    · intro cs l out hsz h r
      cases cs with
      | nil =>
        simp only [or_filter, Except.ok.injEq] at h
        subst h
        simp
      | cons c rest =>
        have hszc : sizeOf c ≤ N := by
          simp only [List.cons.sizeOf_spec] at hsz
          omega
        have hszrest : sizeOf rest ≤ N := by
          simp only [List.cons.sizeOf_spec] at hsz
          omega
        by_cases hop : c.isOp
        · simp only [or_filter, if_pos hop] at h
          split at h
          · exact absurd h (by simp)
          · rename_i r1 hfc
            split at h
            · exact absurd h (by simp)
            · rename_i r2 hor
              simp only [Except.ok.injEq] at h
              subst h
              rw [List.mem_append, ihf c l r1 hszc hfc r, iho rest l r2 hszrest hor r]
              simp only [List.exists_mem_cons_iff]
              tauto
        · simp only [or_filter, if_neg hop] at h
          split at h
          · exact absurd h (by simp)
          · rename_i r2 hor
            simp only [Except.ok.injEq] at h
            subst h
            rw [List.mem_append, mem_filter_records_by_term, iho rest l r2 hszrest hor r,
              ← sem_leaf (by simpa using hop)]
            simp only [List.exists_mem_cons_iff]
            tauto

theorem filter_ok_transfer : ∀ N : Nat,
    (∀ q l out l2, sizeOf q ≤ N → filter_records q l = .ok out →
      ∃ out2, filter_records q l2 = .ok out2) ∧
    (∀ cs l out l2, sizeOf cs ≤ N → and_filter_ops cs l = .ok out →
      ∃ out2, and_filter_ops cs l2 = .ok out2) ∧
    (∀ cs l out l2, sizeOf cs ≤ N → or_filter cs l = .ok out →
      ∃ out2, or_filter cs l2 = .ok out2) := by
  intro N
  induction N with
  | zero =>
    refine ⟨?_, ?_, ?_⟩
    · intro q l out l2 hsz
      exfalso
      cases q
      simp only [BQ.mk.sizeOf_spec] at hsz
      omega
    · intro cs l out l2 hsz
      exfalso
      cases cs with
      | nil =>
        simp only [List.nil.sizeOf_spec] at hsz
        omega
      | cons c rest =>
        simp only [List.cons.sizeOf_spec] at hsz
        omega
    · intro cs l out l2 hsz
      exfalso
      cases cs with
      | nil =>
        simp only [List.nil.sizeOf_spec] at hsz
        omega
      | cons c rest =>
        simp only [List.cons.sizeOf_spec] at hsz
        omega
  | succ N ih =>
    obtain ⟨ihf, iha, iho⟩ := ih
    refine ⟨?_, ?_, ?_⟩
    · intro q l out l2 hsz h
      cases q with
      | mk v op cs =>
        cases op
        · exact ⟨filter_records_by_term v l2, rfl⟩
        · have hszcs : sizeOf cs ≤ N := by
            simp only [BQ.mk.sizeOf_spec] at hsz
            omega
          by_cases hv : v = "AND"
          · subst hv
            rw [filter_records_and_eq] at h
            obtain ⟨out2, h2⟩ := iha cs _ out (and_filter_leaves cs l2) hszcs h
            exact ⟨out2, by rw [filter_records_and_eq]; exact h2⟩
          · by_cases hv2 : v = "OR"
            · subst hv2
              rw [filter_records_or_eq] at h
              obtain ⟨out2, h2⟩ := iho cs l out l2 hszcs h
              exact ⟨out2, by rw [filter_records_or_eq]; exact h2⟩
            · exfalso
              simp only [filter_records, if_neg hv, if_neg hv2] at h
              exact absurd h (by simp)
    · intro cs l out l2 hsz h
      cases cs with
      | nil => exact ⟨l2, rfl⟩
      | cons c rest =>
        have hszc : sizeOf c ≤ N := by
          simp only [List.cons.sizeOf_spec] at hsz
          omega
        have hszrest : sizeOf rest ≤ N := by
          simp only [List.cons.sizeOf_spec] at hsz
          omega
        by_cases hop : c.isOp
        · simp only [and_filter_ops, if_pos hop] at h ⊢
          split at h
          · exact absurd h (by simp)
          · rename_i l1 hfc
            obtain ⟨l1b, hfc2⟩ := ihf c l l1 l2 hszc hfc
            obtain ⟨out2, h2⟩ := iha rest l1 out l1b hszrest h
            rw [hfc2]
            exact ⟨out2, h2⟩
        · simp only [and_filter_ops, if_neg hop] at h ⊢
          exact iha rest l out l2 hszrest h
    · intro cs l out l2 hsz h
      cases cs with
      | nil => exact ⟨[], rfl⟩
      | cons c rest =>
        have hszc : sizeOf c ≤ N := by
          simp only [List.cons.sizeOf_spec] at hsz
          omega
        have hszrest : sizeOf rest ≤ N := by
          simp only [List.cons.sizeOf_spec] at hsz
          omega
        by_cases hop : c.isOp
        · simp only [or_filter, if_pos hop] at h ⊢
          split at h
          · exact absurd h (by simp)
          · rename_i r1 hfc
            split at h
            · exact absurd h (by simp)
            · rename_i r2 hor
              obtain ⟨r1b, hfc2⟩ := ihf c l r1 l2 hszc hfc
              obtain ⟨r2b, hor2⟩ := iho rest l r2 l2 hszrest hor
              rw [hfc2, hor2]
              exact ⟨r1b ++ r2b, rfl⟩
        · simp only [or_filter, if_neg hop] at h ⊢
          split at h
          · exact absurd h (by simp)
          · rename_i r2 hor
            obtain ⟨r2b, hor2⟩ := iho rest l r2 l2 hszrest hor
            rw [hor2]
            exact ⟨filter_records_by_term c.value l2 ++ r2b, rfl⟩

theorem filter_records_mem_iff {q : BQ} {l out : List Record}
    (h : filter_records q l = .ok out) (r : Record) :
    r ∈ out ↔ r ∈ l ∧ sem q r = true :=
  (filter_sem_main (sizeOf q)).1 q l out (le_refl _) h r

theorem filter_records_transfer {q : BQ} {l out : List Record}
    (h : filter_records q l = .ok out) (l2 : List Record) :
    ∃ out2, filter_records q l2 = .ok out2 :=
  (filter_ok_transfer (sizeOf q)).1 q l out l2 (le_refl _) h

theorem and_filter_ops_children_ok :
    ∀ (cs : List BQ) (l out : List Record), and_filter_ops cs l = .ok out →
      ∀ c ∈ cs, c.isOp = true → ∃ l1 oc, filter_records c l1 = .ok oc := by
  intro cs
  induction cs with
  | nil =>
    intro l out h c hc
    cases hc
  | cons c0 rest ih =>
    intro l out h c hc hop
    by_cases hop0 : c0.isOp
    · simp only [and_filter_ops, if_pos hop0] at h
      split at h
      · exact absurd h (by simp)
      · rename_i l1 hfc
        rcases List.mem_cons.mp hc with heq | hmem
        · subst heq
          exact ⟨l, l1, hfc⟩
        · exact ih l1 out h c hmem hop
    · simp only [and_filter_ops, if_neg hop0] at h
      rcases List.mem_cons.mp hc with heq | hmem
      · subst heq
        exact absurd hop (by simpa using hop0)
      · exact ih l out h c hmem hop

/-- C4: for a non empty record list and an AND node, the filter returns a
subset of the input whose members are exactly the records lying in every
independent filter of a child applied to the same input list; every
independent child filter does succeed on that input. -/
theorem C4_and_filter_intersection (cs : List BQ) (rs out : List Record)
    (hne : rs ≠ []) (h : filter_records (.mk "AND" true cs) rs = .ok out) :
    (∀ r ∈ out, r ∈ rs) ∧
    (∀ c ∈ cs, ∃ oc, filter_records c rs = .ok oc) ∧
    (∀ r, r ∈ out ↔ r ∈ rs ∧
      ∀ c ∈ cs, ∀ oc, filter_records c rs = .ok oc → r ∈ oc) := by
  have hok : ∀ c ∈ cs, ∃ oc, filter_records c rs = .ok oc := by
    intro c hc
    by_cases hop : c.isOp
    · rw [filter_records_and_eq] at h
      obtain ⟨l1, oc, hfc⟩ := and_filter_ops_children_ok cs _ out h c hc hop
      exact filter_records_transfer hfc rs
    · exact ⟨filter_records_by_term c.value rs, filter_records_leaf (by simpa using hop) rs⟩
  have hmem := filter_records_mem_iff h
  refine ⟨fun r hr => ((hmem r).mp hr).1, hok, fun r => ?_⟩
  rw [hmem r, sem_and "AND" cs r rfl, semAll_iff]
  constructor
  · rintro ⟨h1, h2⟩
    refine ⟨h1, fun c hc oc hoc => ?_⟩
    rw [filter_records_mem_iff hoc r]
    exact ⟨h1, h2 c hc⟩
  · rintro ⟨h1, h2⟩
    refine ⟨h1, fun c hc => ?_⟩
    obtain ⟨oc, hoc⟩ := hok c hc
    have h3 := h2 c hc oc hoc
    exact ((filter_records_mem_iff hoc r).mp h3).2

theorem or_filter_flatten :
    ∀ (cs : List BQ) (l out : List Record), or_filter cs l = .ok out →
      ∃ outs, child_filters cs l = .ok outs ∧ out = outs.flatten := by
  intro cs
  induction cs with
  | nil =>
    intro l out h
    simp only [or_filter, Except.ok.injEq] at h
    exact ⟨[], rfl, by simp [← h]⟩
  | cons c rest ih =>
    intro l out h
    by_cases hop : c.isOp
    · simp only [or_filter, if_pos hop] at h
      split at h
      · exact absurd h (by simp)
      · rename_i r1 hfc
        split at h
        · exact absurd h (by simp)
        · rename_i r2 hor
          simp only [Except.ok.injEq] at h
          obtain ⟨outs, hcf, hout⟩ := ih l r2 hor
          refine ⟨r1 :: outs, ?_, ?_⟩
          · simp [child_filters, hfc, hcf]
          · simp [← h, hout]
    · simp only [or_filter, if_neg hop] at h
      split at h
      · exact absurd h (by simp)
      · rename_i r2 hor
        simp only [Except.ok.injEq] at h
        obtain ⟨outs, hcf, hout⟩ := ih l r2 hor
        refine ⟨filter_records_by_term c.value l :: outs, ?_, ?_⟩
        · simp [child_filters, filter_records_leaf (by simpa using hop), hcf]
        · simp [← h, hout]

theorem dedup_by_doi_reinsert_append (xs ys : List Record) :
    dedup_by_doi (dedup_by_doi xs ++ ys) = dedup_by_doi (xs ++ ys) := by
  unfold dedup_by_doi
  rw [buildDict_reinsert_append]

theorem dedup_by_doi_foldl_acc (ls : List (List Record)) :
    ∀ X : List Record,
      ls.foldl (fun acc oc => dedup_by_doi (acc ++ oc)) (dedup_by_doi X) =
        dedup_by_doi (X ++ ls.flatten) := by
  induction ls with
  | nil =>
    intro X
    simp
  | cons oc rest ih =>
    intro X
    rw [List.foldl_cons, dedup_by_doi_reinsert_append, ih (X ++ oc)]
    simp [List.append_assoc]

theorem dedup_by_doi_flatten (ls : List (List Record)) :
    dedup_by_doi ls.flatten = ls.foldl (fun acc oc => dedup_by_doi (acc ++ oc)) [] := by
  cases ls with
  | nil => rfl
  | cons oc rest =>
    rw [List.foldl_cons]
    simpa using (dedup_by_doi_foldl_acc rest oc).symm

/-- C6: for a non empty record list and an OR node, the filter returns the
concatenation of the independent filters of the children (so duplicates
across branches are kept: the length is the sum of the branch lengths, and
no deduplication happens inside the OR filter), and its reduction by the
DOI keyed deduplication equals the DOI keyed last-write-wins union of the
independent child filters. -/
theorem C6_or_filter_union (cs : List BQ) (rs out : List Record)
    (hne : rs ≠ []) (h : filter_records (.mk "OR" true cs) rs = .ok out) :
    ∃ outs, child_filters cs rs = .ok outs ∧
      out = outs.flatten ∧
      out.length = (outs.map List.length).sum ∧
      (∀ r, r ∈ out ↔ ∃ oc ∈ outs, r ∈ oc) ∧
      dedup_by_doi out = outs.foldl (fun acc oc => dedup_by_doi (acc ++ oc)) [] := by
  rw [filter_records_or_eq] at h
  obtain ⟨outs, hcf, hout⟩ := or_filter_flatten cs rs out h
  subst hout
  exact ⟨outs, hcf, rfl, List.length_flatten outs, fun r => List.mem_flatten,
    dedup_by_doi_flatten outs⟩

theorem C4_and_filter_intersection_witness :
    (∀ r ∈ [Record.mk (some "1") (some "Big Data and AI")],
      r ∈ [Record.mk (some "1") (some "Big Data and AI"),
        Record.mk (some "2") (some "big data"), Record.mk (some "3") (some "ml only")]) ∧
    (∀ c ∈ [BQ.mk "big data" false [],
        BQ.mk "OR" true [BQ.mk "ai" false [], BQ.mk "ml" false []]],
      ∃ oc, filter_records c
        [Record.mk (some "1") (some "Big Data and AI"),
          Record.mk (some "2") (some "big data"),
          Record.mk (some "3") (some "ml only")] = .ok oc) ∧
    (∀ r, r ∈ [Record.mk (some "1") (some "Big Data and AI")] ↔
      r ∈ [Record.mk (some "1") (some "Big Data and AI"),
        Record.mk (some "2") (some "big data"), Record.mk (some "3") (some "ml only")] ∧
      ∀ c ∈ [BQ.mk "big data" false [],
        BQ.mk "OR" true [BQ.mk "ai" false [], BQ.mk "ml" false []]],
      ∀ oc, filter_records c
        [Record.mk (some "1") (some "Big Data and AI"),
          Record.mk (some "2") (some "big data"),
          Record.mk (some "3") (some "ml only")] = .ok oc → r ∈ oc) :=
  C4_and_filter_intersection
    [BQ.mk "big data" false [], BQ.mk "OR" true [BQ.mk "ai" false [], BQ.mk "ml" false []]]
    [Record.mk (some "1") (some "Big Data and AI"), Record.mk (some "2") (some "big data"),
      Record.mk (some "3") (some "ml only")]
    [Record.mk (some "1") (some "Big Data and AI")]
    (by decide) (by decide)

theorem C6_or_filter_union_witness :
    ∃ outs, child_filters [BQ.mk "ai" false [], BQ.mk "data" false []]
        [Record.mk (some "1") (some "AI data")] = .ok outs ∧
      [Record.mk (some "1") (some "AI data"), Record.mk (some "1") (some "AI data")] =
        outs.flatten ∧
      [Record.mk (some "1") (some "AI data"),
        Record.mk (some "1") (some "AI data")].length = (outs.map List.length).sum ∧
      (∀ r, r ∈ [Record.mk (some "1") (some "AI data"),
        Record.mk (some "1") (some "AI data")] ↔ ∃ oc ∈ outs, r ∈ oc) ∧
      dedup_by_doi [Record.mk (some "1") (some "AI data"),
        Record.mk (some "1") (some "AI data")] =
        outs.foldl (fun acc oc => dedup_by_doi (acc ++ oc)) [] :=
  C6_or_filter_union [BQ.mk "ai" false [], BQ.mk "data" false []]
    [Record.mk (some "1") (some "AI data")]
    [Record.mk (some "1") (some "AI data"), Record.mk (some "1") (some "AI data")]
    (by decide) (by decide)

theorem ofQueryList_length : ∀ qs : List Query, (ofQueryList qs).length = qs.length := by
  intro qs
  induction qs with
  | nil => rfl
  | cons q rest ih => simpa [ofQueryList] using ih

theorem run_beals_and_nil (env : String → List Record) (cost : String → Nat) :
    run_beals env cost (.mk "AND" true []) =
      .error (.valueError "AndQuery must have at least one child.") := by
  have hcalc : calculate_path cost (.mk "AND" true []) =
      .error (.valueError "AndQuery must have at least one child.") := rfl
  simp only [run_beals]
  rw [if_pos trivial]
  split
  · rename_i heq
    rw [hcalc] at heq
    simp only [Except.error.injEq] at heq
    subst heq
    rfl
  · rename_i heq
    rw [hcalc] at heq
    exact absurd heq (by simp)

theorem run_beals_or_nil (env : String → List Record) (cost : String → Nat) :
    run_beals env cost (.mk "OR" true []) = .ok ([], []) := by
  simp [run_beals, run_list]
  rfl

/-- C8 counterexample: the claim says evaluation of a zero-children operator
node fails regardless of whether the operator is AND or OR, but run_beals
on an OR node with zero children succeeds, returning the empty record set
(the two loops of the OR branch run zero times and deduplication of the
empty list succeeds). -/
theorem C8_counterexample_or_run_succeeds :
    run_beals (fun _ => []) (fun _ => 0) (.mk "OR" true []) = .ok ([], []) :=
  run_beals_or_nil (fun _ => []) (fun _ => 0)

/-- C8 (amended): construction is a pure, total copy of the query tree and
never fails, also for zero-children operator nodes; calculate_path fails
with the ValueError for every operator node with zero children, AND or OR
alike; run_beals fails for an AND node with zero children (through
calculate_path); but run_beals on an OR node with zero children succeeds
and returns the empty record set. -/
theorem C8_zero_children_behaviour :
    (∀ q : Query, (ofQuery q).value = q.value ∧ (ofQuery q).isOp = q.isOp ∧
      (ofQuery q).children.length = q.children.length) ∧
    (∀ (cost : String → Nat) (v : String), calculate_path cost (.mk v true []) =
      .error (.valueError "AndQuery must have at least one child.")) ∧
    (∀ (env : String → List Record) (cost : String → Nat),
      run_beals env cost (.mk "AND" true []) =
        .error (.valueError "AndQuery must have at least one child.")) ∧
    (∀ (env : String → List Record) (cost : String → Nat),
      run_beals env cost (.mk "OR" true []) = .ok ([], [])) := by
  refine ⟨?_, fun cost v => rfl, run_beals_and_nil, run_beals_or_nil⟩
  intro q
  cases q with
  | mk v o cs =>
    exact ⟨rfl, rfl, ofQueryList_length cs⟩

/-! Run layer: helper lemmas for run_beals. -/

theorem termMatch_title {t : String} {r : Record} (h : termMatch t r = true) :
    r.title.isSome := by
  cases htitle : r.title with
  | none => simp [termMatch, htitle] at h
  | some s => simp

theorem leafTermsList_sub {c : BQ} {cs : List BQ} (hc : c ∈ cs) :
    ∀ t ∈ leafTerms c, t ∈ leafTermsList cs := by
  induction cs with
  | nil => cases hc
  | cons c0 rest ih =>
    intro t ht
    rw [leafTermsList, List.mem_append]
    rcases List.mem_cons.mp hc with h | h
    · subst h
      exact Or.inl ht
    · exact Or.inr (ih h t ht)

theorem calculate_path_and_pivot (cost : String → Nat) (cs : List BQ) (n i : Nat)
    (q : BQ) (h : calculate_path cost (.mk "AND" true cs) = .ok (n, i, q)) :
    i < cs.length ∧ ∀ d, q = cs.getD i d := by
  obtain ⟨c0, rest, r0, ns, hcs, h1, h2, hn, hi, hq⟩ :=
    calculate_path_and_inv cost cs n i q h
  subst hcs
  have hlen3 : ns.length = rest.length := calc_path_list_length cost rest ns h2
  obtain ⟨hs1, hs2⟩ := scanMin_spec (r0.1 :: ns) r0.1 0 0
  have hlen : i < (c0 :: rest).length := by
    rcases hs2 with ⟨ha, -, -⟩ | ⟨k, hk, ha, -, -, -⟩
    · rw [hi, ha]
      simp
    · rw [hi, ha]
      simp only [List.length_cons] at hk ⊢
      omega
  refine ⟨hlen, fun d => ?_⟩
  rw [hq, List.getD_eq_getElem _ _ hlen, List.getD_eq_getElem _ _ hlen]

theorem and_run_fold_mem (dflt : BQ) :
    ∀ (cs : List BQ) (i pidx : Nat) (rs out : List Record),
      and_run_fold cs i pidx rs = .ok out →
      ∀ r, r ∈ out ↔ r ∈ rs ∧
        ∀ k, k < cs.length → i + k ≠ pidx → sem (cs.getD k dflt) r = true := by
  intro cs
  induction cs with
  | nil =>
    intro i pidx rs out h r
    simp only [and_run_fold, Except.ok.injEq] at h
    subst h
    simp
  | cons c rest ih =>
    intro i pidx rs out h r
    by_cases hi : i = pidx
    · rw [and_run_fold, if_pos hi] at h
      rw [ih (i + 1) pidx rs out h r]
      constructor
      · rintro ⟨h1, h2⟩
        refine ⟨h1, fun k hk hne => ?_⟩
        cases k with
        | zero => omega
        | succ k2 =>
          rw [List.getD_cons_succ]
          exact h2 k2 (by simpa using hk) (by omega)
      · rintro ⟨h1, h2⟩
        refine ⟨h1, fun k hk hne => ?_⟩
        have := h2 (k + 1) (by simpa using hk) (by omega)
        rwa [List.getD_cons_succ] at this
    · rw [and_run_fold, if_neg hi] at h
      split at h
      · exact absurd h (by simp)
      · rename_i rs1 hfc
        rw [ih (i + 1) pidx rs1 out h r]
        rw [filter_records_mem_iff hfc r]
        constructor
        · rintro ⟨⟨h1, h2⟩, h3⟩
          refine ⟨h1, fun k hk hne => ?_⟩
          cases k with
          | zero => simpa using h2
          | succ k2 =>
            rw [List.getD_cons_succ]
            exact h3 k2 (by simpa using hk) (by omega)
        · rintro ⟨h1, h2⟩
          refine ⟨⟨h1, by simpa using h2 0 (by simp) (by omega)⟩, fun k hk hne => ?_⟩
          have := h2 (k + 1) (by simpa using hk) (by omega)
          rwa [List.getD_cons_succ] at this

theorem run_beals_leaf_inv (env : String → List Record) (cost : String → Nat)
    (v : String) (cs : List BQ) (out : List Record) (log : List String)
    (h : run_beals env cost (.mk v false cs) = .ok (out, log)) :
    remove_duplicates (retrieve env v) = .ok out ∧ log = [v] := by
  simp only [run_beals] at h
  split at h
  · exact absurd h (by simp)
  · rename_i recs hrd
    simp only [Except.ok.injEq, Prod.mk.injEq] at h
    obtain ⟨h1, h2⟩ := h
    subst h1
    exact ⟨hrd, h2.symm⟩

theorem run_beals_and_inv (env : String → List Record) (cost : String → Nat)
    (cs : List BQ) (out : List Record) (log : List String)
    (h : run_beals env cost (.mk "AND" true cs) = .ok (out, log)) :
    ∃ n pidx pivot rs0 log0 rs1,
      calculate_path cost (.mk "AND" true cs) = .ok (n, pidx, pivot) ∧
      run_beals env cost pivot = .ok (rs0, log0) ∧
      and_run_fold cs 0 pidx rs0 = .ok rs1 ∧
      remove_duplicates rs1 = .ok out ∧ log = log0 := by
  simp only [run_beals] at h
  rw [if_pos trivial] at h
  split at h
  · exact absurd h (by simp)
  · rename_i heq
    split at h
    · exact absurd h (by simp)
    · rename_i hrun0
      split at h
      · exact absurd h (by simp)
      · rename_i harf
        split at h
        · exact absurd h (by simp)
        · rename_i hrd
          simp only [Except.ok.injEq, Prod.mk.injEq] at h
          obtain ⟨h1, h2⟩ := h
          subst h1
          exact ⟨_, _, _, _, _, _, heq, hrun0, harf, hrd, h2.symm⟩

theorem run_beals_or_inv (env : String → List Record) (cost : String → Nat)
    (cs : List BQ) (out : List Record) (log : List String)
    (h : run_beals env cost (.mk "OR" true cs) = .ok (out, log)) :
    ∃ results, run_list env cost cs = .ok results ∧
      remove_duplicates (results.map Prod.fst).flatten = .ok out ∧
      log = (results.map Prod.snd).flatten := by
  simp only [run_beals] at h
  rw [if_neg (by decide), if_pos trivial] at h
  split at h
  · exact absurd h (by simp)
  · rename_i results hrl
    split at h
    · exact absurd h (by simp)
    · rename_i out2 hrd
      simp only [Except.ok.injEq, Prod.mk.injEq] at h
      obtain ⟨h1, h2⟩ := h
      subst h1
      exact ⟨results, hrl, hrd, h2.symm⟩

theorem run_list_members (env : String → List Record) (cost : String → Nat) :
    ∀ (cs : List BQ) (results : List (List Record × List String)),
      run_list env cost cs = .ok results →
      ∀ p ∈ results, ∃ c ∈ cs, run_beals env cost c = .ok p := by
  intro cs
  induction cs with
  | nil =>
    intro results h p hp
    simp only [run_list, Except.ok.injEq] at h
    subst h
    cases hp
  | cons c rest ih =>
    intro results h p hp
    simp only [run_list] at h
    split at h
    · exact absurd h (by simp)
    · rename_i r hr
      split at h
      · exact absurd h (by simp)
      · rename_i rest2 hrest
        simp only [Except.ok.injEq] at h
        subst h
        rcases List.mem_cons.mp hp with hh | hh
        · exact ⟨c, List.mem_cons_self c rest, by rw [hh]; exact hr⟩
        · obtain ⟨c2, hc2, hrun⟩ := ih rest2 hrest p hh
          exact ⟨c2, List.mem_cons_of_mem c hc2, hrun⟩

theorem run_list_getD (env : String → List Record) (cost : String → Nat) :
    ∀ (cs : List BQ) (results : List (List Record × List String)),
      run_list env cost cs = .ok results →
      results.length = cs.length ∧
      ∀ (k : Nat) (d : BQ) (d2 : List Record × List String), k < cs.length →
        run_beals env cost (cs.getD k d) = .ok (results.getD k d2) := by
  intro cs
  induction cs with
  | nil =>
    intro results h
    simp only [run_list, Except.ok.injEq] at h
    subst h
    refine ⟨rfl, fun k d d2 hk => ?_⟩
    simp at hk
  | cons c rest ih =>
    intro results h
    simp only [run_list] at h
    split at h
    · exact absurd h (by simp)
    · rename_i r hr
      split at h
      · exact absurd h (by simp)
      · rename_i rest2 hrest
        simp only [Except.ok.injEq] at h
        subst h
        obtain ⟨hlen, hget⟩ := ih rest2 hrest
        refine ⟨by simpa using hlen, fun k d d2 hk => ?_⟩
        cases k with
        | zero => simpa using hr
        | succ k2 =>
          rw [List.getD_cons_succ, List.getD_cons_succ]
          exact hget k2 d d2 (by simpa using hk)

theorem run_inv_main : ∀ N : Nat,
    ∀ (env : String → List Record) (cost : String → Nat) (q : BQ)
      (out : List Record) (log : List String),
      sizeOf q ≤ N → run_beals env cost q = .ok (out, log) →
      (∀ r ∈ out, r.title.isSome ∧ sem q r = true) ∧
      (out.map (fun r => r.doi)).Nodup ∧ (out.map lowTitle).Nodup ∧
      (∀ t ∈ log, t ∈ leafTerms q) := by
  intro N
  induction N with
  | zero =>
    intro env cost q out log hsz
    exfalso
    cases q
    simp only [BQ.mk.sizeOf_spec] at hsz
    omega
  | succ N ih =>
    intro env cost q out log hsz h
    cases q with
    | mk v op cs =>
      cases op
      · obtain ⟨hrd, hlog⟩ := run_beals_leaf_inv env cost v cs out log h
        refine ⟨?_, remove_duplicates_doi_nodup hrd,
          remove_duplicates_lowTitle_nodup hrd, ?_⟩
        · intro r hr
          have hmem := remove_duplicates_sub hrd r hr
          simp only [retrieve] at hmem
          rw [mem_filter_records_by_term] at hmem
          refine ⟨termMatch_title hmem.2, ?_⟩
          rw [@sem_leaf (BQ.mk v false cs) rfl r]
          exact hmem.2
        · intro t ht
          rw [hlog] at ht
          simpa [leafTerms] using ht
      · by_cases hv : v = "AND"
        · subst hv
          obtain ⟨n, pidx, pivot, rs0, log0, rs1, hcalc, hrun0, harf, hrd, hlog⟩ :=
            run_beals_and_inv env cost cs out log h
          have hpmem : pivot ∈ cs := calculate_path_mem cost "AND" cs n pidx pivot hcalc
          have hszp : sizeOf pivot ≤ N := by
            have h5 := List.sizeOf_lt_of_mem hpmem
            simp only [BQ.mk.sizeOf_spec] at hsz
            omega
          obtain ⟨hinv1, hinv2, hinv3, hinv4⟩ := ih env cost pivot rs0 log0 hszp hrun0
          have harf_mem := and_run_fold_mem (BQ.mk "" false []) cs 0 pidx rs0 rs1 harf
          have hsub1 : ∀ r ∈ out, r ∈ rs1 := remove_duplicates_sub hrd
          have hsub0 : ∀ r ∈ rs1, r ∈ rs0 := fun r hr => ((harf_mem r).mp hr).1
          obtain ⟨hpidx_lt, hpivot_getD⟩ :=
            calculate_path_and_pivot cost cs n pidx pivot hcalc
          refine ⟨?_, remove_duplicates_doi_nodup hrd,
            remove_duplicates_lowTitle_nodup hrd, ?_⟩
          · intro r hr
            have hr0 : r ∈ rs0 := hsub0 r (hsub1 r hr)
            refine ⟨(hinv1 r hr0).1, ?_⟩
            rw [sem_and "AND" cs r rfl, semAll_iff]
            intro c hc
            obtain ⟨k, hk, hck⟩ := List.getElem_of_mem hc
            by_cases hkp : k = pidx
            · subst hkp
              have h7 : pivot = c := by
                rw [hpivot_getD (BQ.mk "" false []), List.getD_eq_getElem _ _ hk]
                exact hck
              rw [← h7]
              exact (hinv1 r hr0).2
            · have h6 := ((harf_mem r).mp (hsub1 r hr)).2 k hk (by omega)
              rw [List.getD_eq_getElem _ _ hk, hck] at h6
              exact h6
          · intro t ht
            rw [hlog] at ht
            exact leafTermsList_sub hpmem t (hinv4 t ht)
        · by_cases hv2 : v = "OR"
          · subst hv2
            obtain ⟨results, hrl, hrd, hlog⟩ := run_beals_or_inv env cost cs out log h
            refine ⟨?_, remove_duplicates_doi_nodup hrd,
              remove_duplicates_lowTitle_nodup hrd, ?_⟩
            · intro r hr
              have hrm := remove_duplicates_sub hrd r hr
              rw [List.mem_flatten] at hrm
              obtain ⟨lrec, hlrec, hrin⟩ := hrm
              obtain ⟨p, hp, hpl⟩ := List.mem_map.mp hlrec
              obtain ⟨c, hc, hrunc⟩ := run_list_members env cost cs results hrl p hp
              obtain ⟨p1, p2⟩ := p
              have hszc : sizeOf c ≤ N := by
                have h5 := List.sizeOf_lt_of_mem hc
                simp only [BQ.mk.sizeOf_spec] at hsz
                omega
              obtain ⟨hc1, -, -, -⟩ := ih env cost c p1 p2 hszc hrunc
              have hrp : r ∈ p1 := by
                simp only at hpl
                rw [← hpl] at hrin
                exact hrin
              refine ⟨(hc1 r hrp).1, ?_⟩
              rw [sem_or_like "OR" cs r (by decide), semAny_iff]
              exact ⟨c, hc, (hc1 r hrp).2⟩
            · intro t ht
              rw [hlog, List.mem_flatten] at ht
              obtain ⟨lt2, hlt, htin⟩ := ht
              obtain ⟨p, hp, hpl⟩ := List.mem_map.mp hlt
              obtain ⟨c, hc, hrunc⟩ := run_list_members env cost cs results hrl p hp
              obtain ⟨p1, p2⟩ := p
              have hszc : sizeOf c ≤ N := by
                have h5 := List.sizeOf_lt_of_mem hc
                simp only [BQ.mk.sizeOf_spec] at hsz
                omega
              obtain ⟨-, -, -, hc4⟩ := ih env cost c p1 p2 hszc hrunc
              have h8 : t ∈ leafTerms c := by
                apply hc4
                simp only at hpl
                rw [← hpl] at htin
                exact htin
              exact leafTermsList_sub hc t h8
          · exfalso
            simp only [run_beals, if_neg hv, if_neg hv2] at h
            exact absurd h (by simp)

/-- C1: for an AND node, run_beals picks as pivot exactly the child
returned by cost estimation, recursively runs only that pivot (the
retrieval log of the AND node equals the log of the pivot run, and every
term in it is a leaf term of the pivot subtree, so no other child is
retrieved remotely), applies the filter of each remaining child to the
running record list in the original child order with the pivot excluded,
deduplicates, and the final record set consists, as a set, of exactly the
records of the pivot run that match every child: the intersection of the
match sets of all children inside the remotely retrieved pivot set. -/
theorem C1_and_run_pivot_filter (env : String → List Record) (cost : String → Nat)
    (cs : List BQ) (out : List Record) (log : List String)
    (h : run_beals env cost (.mk "AND" true cs) = .ok (out, log)) :
    ∃ n pidx pivot rs0 log0 rs1,
      calculate_path cost (.mk "AND" true cs) = .ok (n, pidx, pivot) ∧
      pidx < cs.length ∧ (∀ d, pivot = cs.getD pidx d) ∧
      run_beals env cost pivot = .ok (rs0, log0) ∧
      and_run_fold cs 0 pidx rs0 = .ok rs1 ∧
      remove_duplicates rs1 = .ok out ∧
      log = log0 ∧ (∀ t ∈ log, t ∈ leafTerms pivot) ∧
      (∀ r, r ∈ out ↔ r ∈ rs0 ∧ ∀ c ∈ cs, sem c r = true) := by
  obtain ⟨n, pidx, pivot, rs0, log0, rs1, hcalc, hrun0, harf, hrd, hlog⟩ :=
    run_beals_and_inv env cost cs out log h
  obtain ⟨hpidx_lt, hpivot_getD⟩ := calculate_path_and_pivot cost cs n pidx pivot hcalc
  obtain ⟨hinv1, hinv2, hinv3, hinv4⟩ :=
    run_inv_main (sizeOf pivot) env cost pivot rs0 log0 (le_refl _) hrun0
  have harf_mem := and_run_fold_mem (BQ.mk "" false []) cs 0 pidx rs0 rs1 harf
  have hsub0 : ∀ r ∈ rs1, r ∈ rs0 := fun r hr => ((harf_mem r).mp hr).1
  refine ⟨n, pidx, pivot, rs0, log0, rs1, hcalc, hpidx_lt, hpivot_getD, hrun0, harf,
    hrd, hlog, ?_, ?_⟩
  · intro t ht
    rw [hlog] at ht
    exact hinv4 t ht
  · have hdinj : ∀ a ∈ rs1, ∀ b ∈ rs1, a.doi = b.doi → a = b := by
      intro a ha b hb hab
      exact List.inj_on_of_nodup_map hinv2 (hsub0 a ha) (hsub0 b hb) hab
    have htinj : ∀ a ∈ rs1, ∀ b ∈ rs1, lowTitle a = lowTitle b → a = b := by
      intro a ha b hb hab
      exact List.inj_on_of_nodup_map hinv3 (hsub0 a ha) (hsub0 b hb) hab
    have hts : ∀ r ∈ rs1, r.title.isSome := fun r hr => (hinv1 r (hsub0 r hr)).1
    obtain ⟨out2, hrd2, hmem2⟩ := remove_duplicates_ok_of_inj hdinj htinj hts
    have hout2 : out2 = out := by
      rw [hrd2] at hrd
      injection hrd
    intro r
    have hmem_out : r ∈ out ↔ r ∈ rs1 := by
      rw [← hout2]
      exact hmem2 r
    rw [hmem_out, harf_mem r]
    constructor
    · rintro ⟨h1, h2⟩
      refine ⟨h1, fun c hc => ?_⟩
      obtain ⟨k, hk, hck⟩ := List.getElem_of_mem hc
      by_cases hkp : k = pidx
      · subst hkp
        have h7 : pivot = c := by
          rw [hpivot_getD (BQ.mk "" false []), List.getD_eq_getElem _ _ hk]
          exact hck
        rw [← h7]
        exact (hinv1 r h1).2
      · have h6 := h2 k hk (by omega)
        rw [List.getD_eq_getElem _ _ hk, hck] at h6
        exact h6
    · rintro ⟨h1, h2⟩
      refine ⟨h1, fun k hk hkp => ?_⟩
      apply h2
      rw [List.getD_eq_getElem _ _ hk]
      exact List.getElem_mem hk

theorem C1_and_run_pivot_filter_witness :
    ∃ n pidx pivot rs0 log0 rs1,
      calculate_path (fun t => t.length)
        (.mk "AND" true [BQ.mk "bb" false [], BQ.mk "a" false []]) =
        .ok (n, pidx, pivot) ∧
      pidx < [BQ.mk "bb" false [], BQ.mk "a" false []].length ∧
      (∀ d, pivot = [BQ.mk "bb" false [], BQ.mk "a" false []].getD pidx d) ∧
      run_beals (fun t => if t = "a" then [Record.mk (some "1") (some "a bb")] else [])
        (fun t => t.length) pivot = .ok (rs0, log0) ∧
      and_run_fold [BQ.mk "bb" false [], BQ.mk "a" false []] 0 pidx rs0 = .ok rs1 ∧
      remove_duplicates rs1 = .ok [Record.mk (some "1") (some "a bb")] ∧
      (["a"] : List String) = log0 ∧ (∀ t ∈ (["a"] : List String), t ∈ leafTerms pivot) ∧
      (∀ r, r ∈ [Record.mk (some "1") (some "a bb")] ↔ r ∈ rs0 ∧
        ∀ c ∈ [BQ.mk "bb" false [], BQ.mk "a" false []], sem c r = true) :=
  C1_and_run_pivot_filter
    (fun t => if t = "a" then [Record.mk (some "1") (some "a bb")] else [])
    (fun t => t.length)
    [BQ.mk "bb" false [], BQ.mk "a" false []]
    [Record.mk (some "1") (some "a bb")] ["a"]
    (by
      simp only [run_beals]
      rw [show calculate_path (fun t => t.length)
        (.mk "AND" true [BQ.mk "bb" false [], BQ.mk "a" false []]) =
        .ok (1, 1, BQ.mk "a" false []) from rfl]
      simp only [run_beals]
      decide)

/-- C3 counterexample: with a record oracle where the leaf a yields the
record (doi 1, title a) and the leaf A yields (doi 2, title A), running the
OR node over the children a, A returns only (doi 2, title A): the record
(doi 1, title a) is dropped by the second, title keyed deduplication pass
although the two records have distinct DOIs, so the result is not the union
of the children results keyed by DOI alone; and running the children in the
opposite order returns (doi 1, title a) instead, so the result set depends
on the order in which the children are run. -/
theorem C3_counterexample_or_title_collapse :
    run_beals
      (fun t => if t = "a" then [Record.mk (some "1") (some "a")]
        else if t = "A" then [Record.mk (some "2") (some "A")] else [])
      (fun _ => 0)
      (.mk "OR" true [BQ.mk "a" false [], BQ.mk "A" false []]) =
      .ok ([Record.mk (some "2") (some "A")], ["a", "A"]) ∧
    run_beals
      (fun t => if t = "a" then [Record.mk (some "1") (some "a")]
        else if t = "A" then [Record.mk (some "2") (some "A")] else [])
      (fun _ => 0) (.mk "a" false []) =
      .ok ([Record.mk (some "1") (some "a")], ["a"]) ∧
    run_beals
      (fun t => if t = "a" then [Record.mk (some "1") (some "a")]
        else if t = "A" then [Record.mk (some "2") (some "A")] else [])
      (fun _ => 0) (.mk "A" false []) =
      .ok ([Record.mk (some "2") (some "A")], ["A"]) ∧
    dedup_by_doi ([Record.mk (some "1") (some "a")] ++ [Record.mk (some "2") (some "A")]) =
      [Record.mk (some "1") (some "a"), Record.mk (some "2") (some "A")] ∧
    ([Record.mk (some "2") (some "A")] : List Record) ≠
      [Record.mk (some "1") (some "a"), Record.mk (some "2") (some "A")] ∧
    run_beals
      (fun t => if t = "a" then [Record.mk (some "1") (some "a")]
        else if t = "A" then [Record.mk (some "2") (some "A")] else [])
      (fun _ => 0)
      (.mk "OR" true [BQ.mk "A" false [], BQ.mk "a" false []]) =
      .ok ([Record.mk (some "1") (some "a")], ["A", "a"]) ∧
    ([Record.mk (some "2") (some "A")] : List Record) ≠
      [Record.mk (some "1") (some "a")] := by
  refine ⟨?_, ?_, ?_, by decide, by decide, ?_, by decide⟩
  · simp only [run_beals, run_list]
    decide
  · simp only [run_beals]
    decide
  · simp only [run_beals]
    decide
  · simp only [run_beals, run_list]
    decide

/-- C3 (amended): run_beals on an OR node runs every child, in child order,
and assigns as its result the two-pass deduplication (by DOI, then by
lowercased title, each pass last write wins) of the concatenation of the
children record lists in child order; the retrieval log is the
concatenation of the children logs.  As the counterexample shows, the
title keyed second pass also collapses records with distinct DOIs, and the
resulting record set can depend on the order of the children. -/
theorem C3_or_run_union (env : String → List Record) (cost : String → Nat)
    (cs : List BQ) (out : List Record) (log : List String)
    (h : run_beals env cost (.mk "OR" true cs) = .ok (out, log)) :
    ∃ results, run_list env cost cs = .ok results ∧
      results.length = cs.length ∧
      (∀ (k : Nat) (d : BQ) (d2 : List Record × List String), k < cs.length →
        run_beals env cost (cs.getD k d) = .ok (results.getD k d2)) ∧
      remove_duplicates (results.map Prod.fst).flatten = .ok out ∧
      log = (results.map Prod.snd).flatten := by
  obtain ⟨results, hrl, hrd, hlog⟩ := run_beals_or_inv env cost cs out log h
  obtain ⟨hlen, hget⟩ := run_list_getD env cost cs results hrl
  exact ⟨results, hrl, hlen, hget, hrd, hlog⟩

theorem C3_or_run_union_witness :
    ∃ results, run_list
        (fun t => if t = "a" then [Record.mk (some "1") (some "a")]
          else if t = "A" then [Record.mk (some "2") (some "A")] else [])
        (fun _ => 0) [BQ.mk "a" false [], BQ.mk "A" false []] = .ok results ∧
      results.length = [BQ.mk "a" false [], BQ.mk "A" false []].length ∧
      (∀ (k : Nat) (d : BQ) (d2 : List Record × List String),
        k < [BQ.mk "a" false [], BQ.mk "A" false []].length →
        run_beals
          (fun t => if t = "a" then [Record.mk (some "1") (some "a")]
            else if t = "A" then [Record.mk (some "2") (some "A")] else [])
          (fun _ => 0) ([BQ.mk "a" false [], BQ.mk "A" false []].getD k d) =
          .ok (results.getD k d2)) ∧
      remove_duplicates (results.map Prod.fst).flatten =
        .ok [Record.mk (some "2") (some "A")] ∧
      (["a", "A"] : List String) = (results.map Prod.snd).flatten :=
  C3_or_run_union
    (fun t => if t = "a" then [Record.mk (some "1") (some "a")]
      else if t = "A" then [Record.mk (some "2") (some "A")] else [])
    (fun _ => 0) [BQ.mk "a" false [], BQ.mk "A" false []]
    [Record.mk (some "2") (some "A")] ["a", "A"]
    (by
      simp only [run_beals, run_list]
      decide)
